import Mathlib

/-!
Verification development for the stemma content-addressable object store.

Byte strings are modelled as `List Nat` (each element a byte value).
Writers produce byte lists; readers are partial functions
`List Nat → Option (α × List Nat)` returning the decoded value and the
remaining input, mirroring Go's `io.Reader` sequential consumption.
Machine-integer conversions (`uint16(x)` etc.) are modelled by explicit
`% 2^w` reductions.
-/

namespace Stemma

/-! ## Little-endian fixed-width integer codec (`encoding/binary`, LittleEndian) -/

/-- `binary.Write(w, LE, uint16(n))`: two little-endian bytes of `n mod 2^16`. -/
def writeU16 (n : Nat) : List Nat :=
  [n % 256, n / 256 % 256]

/-- `binary.Read(r, LE, &u16)`: consume two bytes, little-endian. -/
def readU16 : List Nat → Option (Nat × List Nat)
  | b0 :: b1 :: rest => some (b0 % 256 + 256 * (b1 % 256), rest)
  | _ => none

/-- `binary.Write(w, LE, uint32(n))`: four little-endian bytes of `n mod 2^32`. -/
def writeU32 (n : Nat) : List Nat :=
  [n % 256, n / 256 % 256, n / 256 ^ 2 % 256, n / 256 ^ 3 % 256]

/-- `binary.Read(r, LE, &u32)`: consume four bytes, little-endian. -/
def readU32 : List Nat → Option (Nat × List Nat)
  | b0 :: b1 :: b2 :: b3 :: rest =>
      some (b0 % 256 + 256 * (b1 % 256) + 256 ^ 2 * (b2 % 256) + 256 ^ 3 * (b3 % 256), rest)
  | _ => none

/-- `binary.Write(w, LE, uint64(n))`: eight little-endian bytes of `n mod 2^64`. -/
def writeU64 (n : Nat) : List Nat :=
  [n % 256, n / 256 % 256, n / 256 ^ 2 % 256, n / 256 ^ 3 % 256,
   n / 256 ^ 4 % 256, n / 256 ^ 5 % 256, n / 256 ^ 6 % 256, n / 256 ^ 7 % 256]

/-- `binary.Read(r, LE, &u64)`: consume eight bytes, little-endian. -/
def readU64 : List Nat → Option (Nat × List Nat)
  | b0 :: b1 :: b2 :: b3 :: b4 :: b5 :: b6 :: b7 :: rest =>
      some (b0 % 256 + 256 * (b1 % 256) + 256 ^ 2 * (b2 % 256) + 256 ^ 3 * (b3 % 256)
            + 256 ^ 4 * (b4 % 256) + 256 ^ 5 * (b5 % 256) + 256 ^ 6 * (b6 % 256)
            + 256 ^ 7 * (b7 % 256), rest)
  | _ => none

/-- Writing one byte (`w.Write([]byte{b})`). -/
def writeByte (b : Nat) : List Nat := [b % 256]

/-- Reading one byte (`io.ReadFull(r, buf[0:1])`). -/
def readByte : List Nat → Option (Nat × List Nat)
  | b :: rest => some (b % 256, rest)
  | _ => none

/-! ## Length-prefixed byte strings (`marshalBytes` / `unmarshalBytes`) -/

/-- `marshalBytes(w, buf)`: writes `uint16(len(buf))` little-endian and then
all of `buf`, exactly as the Go source (the length is the Go `uint16`
conversion, i.e. `len mod 2^16`; the write of the bytes is not truncated). -/
def marshalBytes (buf : List Nat) : List Nat :=
  writeU16 buf.length ++ buf

/-- `unmarshalBytes(r)`: reads a `uint16` length then exactly that many bytes
(`io.ReadFull`); fails (`Truncated`) when the input is too short. -/
def unmarshalBytes (input : List Nat) : Option (List Nat × List Nat) :=
  match readU16 input with
  | none => none
  | some (n, rest) =>
      if rest.length < n then none
      else some (rest.take n, rest.drop n)

/-- `io.ReadFull(r, make([]byte, n))`: exactly `n` bytes or failure. -/
def readExact (n : Nat) (input : List Nat) : Option (List Nat × List Nat) :=
  if input.length < n then none else some (input.take n, input.drop n)

/-! ## Go string comparison and `sort.Sort`

Go's `<` on strings is byte-wise lexicographic. `sortBy` models `sort.Sort`
for a `Less` predicate expressed through its non-strict companion `le`; the
Go sort produces *some* permutation that is sorted with respect to `Less`,
and `sortBy` is such a permutation (for the duplicate-free inputs arising
from maps and real directory listings the sorted permutation is unique, see
`sorted_perm_eq`). -/

/-- Byte-wise lexicographic strict order, Go's `string <`. -/
def strLt : List Nat → List Nat → Bool
  | _, [] => false
  | [], _ :: _ => true
  | a :: as, b :: bs => a < b || (a == b && strLt as bs)

/-- Insert into a list sorted by the boolean `le`. -/
def insertBy (le : α → α → Bool) (a : α) : List α → List α
  | [] => [a]
  | b :: bs => if le a b then a :: b :: bs else b :: insertBy le a bs

/-- Insertion sort: a sorted permutation with respect to `le`, modelling the
post-state of Go's `sort.Sort`. -/
def sortBy (le : α → α → Bool) : List α → List α
  | [] => []
  | a :: as => insertBy le a (sortBy le as)

/-! ## Digest (`digest.go`) -/

/-- `Digest`: an algorithm-tagged byte string (first byte is the algorithm
identifier, remainder the raw hash). -/
abbrev Digest := List Nat

/-- `Digest.Marshal`: `marshalBytes(w, d.Bytes())`. -/
def digestMarshal (d : Digest) : List Nat := marshalBytes d

/-- `UnmarshalDigest`: `unmarshalBytes(r)`. -/
def unmarshalDigest (input : List Nat) : Option (Digest × List Nat) :=
  unmarshalBytes input

/-! ## Xattrs (`sysutil/xattr.go`) -/

/-- `Xattr`: an extended attribute key-value pair. -/
structure Xattr where
  key : List Nat
  val : List Nat
  deriving DecidableEq, Repr

/-- The non-strict companion of `Xattrs.Less` (`x[i].Key < x[j].Key`). -/
def xattrLE (x y : Xattr) : Bool := ! strLt y.key x.key

/-- `NewXattrs(m)`: the map's pairs (given in iteration order) sorted
ascending by key with `sort.Sort`. -/
def NewXattrs (m : List Xattr) : List Xattr := sortBy xattrLE m

/-- One attribute record of `Xattrs.Marshal`:
`u16 key_len · key · u16 val_len · val` (lengths are Go `uint16`
conversions of the true lengths). -/
def xattrEncode (a : Xattr) : List Nat :=
  writeU16 a.key.length ++ a.key ++ writeU16 a.val.length ++ a.val

/-- `Xattrs.Marshal`: `u16 count`, then the attribute records in order. -/
def xattrsMarshal (x : List Xattr) : List Nat :=
  writeU16 x.length ++ (x.map xattrEncode).flatten

/-- The entry-reading loop of `UnmarshalXattrs`. -/
def unmarshalXattrsLoop : Nat → List Nat → Option (List Xattr × List Nat)
  | 0, input => some ([], input)
  | n + 1, input =>
    match readU16 input with
    | none => none
    | some (klen, r1) =>
      match readExact klen r1 with
      | none => none
      | some (key, r2) =>
        match readU16 r2 with
        | none => none
        | some (vlen, r3) =>
          match readExact vlen r3 with
          | none => none
          | some (v, r4) =>
            match unmarshalXattrsLoop n r4 with
            | none => none
            | some (rest, r5) => some (⟨key, v⟩ :: rest, r5)

/-- `UnmarshalXattrs`: `u16 count` then `count` attribute records. -/
def unmarshalXattrs (input : List Nat) : Option (List Xattr × List Nat) :=
  match readU16 input with
  | none => none
  | some (n, rest) => unmarshalXattrsLoop n rest

/-- Representability of one xattr in the 16-bit length-prefixed format. -/
def XattrWF (a : Xattr) : Prop := a.key.length ≤ 65535 ∧ a.val.length ≤ 65535

instance (a : Xattr) : Decidable (XattrWF a) := by unfold XattrWF; infer_instance

/-- Representability of an xattr list: entry count and all strings fit 16 bits. -/
def XattrsWF (x : List Xattr) : Prop := x.length ≤ 65535 ∧ ∀ a ∈ x, XattrWF a

instance (x : List Xattr) : Decidable (XattrsWF x) := by unfold XattrsWF; infer_instance

/-! ## Header (object model) -/

/-- `Header`: mode, device numbers, owner, group and extended attributes.
The Go field `Xattrs map[string][]byte` is modelled as the list of the
map's key-value pairs in iteration order. -/
structure Header where
  mode : Nat
  rdev : Nat
  uid : Nat
  gid : Nat
  xattrs : List Xattr
  deriving DecidableEq, Repr

/-- `Header.Marshal`: four little-endian `u32` values (mode, rdev, uid, gid)
followed by `sysutil.NewXattrs(h.Xattrs).Marshal` (the xattr pairs sorted
ascending by key). -/
def headerMarshal (h : Header) : List Nat :=
  writeU32 h.mode ++ writeU32 h.rdev ++ writeU32 h.uid ++ writeU32 h.gid ++
    xattrsMarshal (NewXattrs h.xattrs)

/-- `UnmarshalHeader`: reads the four `u32` fields then the xattr list. -/
def unmarshalHeader (input : List Nat) : Option (Header × List Nat) :=
  match readU32 input with
  | none => none
  | some (mode, r1) =>
    match readU32 r1 with
    | none => none
    | some (rdev, r2) =>
      match readU32 r2 with
      | none => none
      | some (uid, r3) =>
        match readU32 r3 with
        | none => none
        | some (gid, r4) =>
          match unmarshalXattrs r4 with
          | none => none
          | some (xs, r5) => some (⟨mode, rdev, uid, gid, xs⟩, r5)

/-- Representability of a header: numeric fields fit their widths, the xattr
list is representable, and the listed keys are strictly sorted (the canonical
representative of the Go map). -/
def HeaderWF (h : Header) : Prop :=
  h.mode < 2 ^ 32 ∧ h.rdev < 2 ^ 32 ∧ h.uid < 2 ^ 32 ∧ h.gid < 2 ^ 32 ∧
    XattrsWF h.xattrs ∧ h.xattrs.Pairwise (fun a b => strLt a.key b.key = true)

instance (h : Header) : Decidable (HeaderWF h) := by unfold HeaderWF; infer_instance

/-! ## DirectoryEntry and Directory (`digest.go`) -/

/-- `DirentType` values (`DirentTypeUnknown = 0` … `DirentTypeSocket = 7`),
held as the raw byte value. -/
def DirentTypeDirectory : Nat := 3

def DirentTypeLink : Nat := 5

def DirentTypeRegular : Nat := 6

/-- `DirectoryEntry`: one row of a directory listing. Strings are byte
lists; numeric fields are the natural values of the Go integers. -/
structure DirectoryEntry where
  name : List Nat
  typ : Nat
  linkTarget : List Nat
  headerDigest : Digest
  headerSize : Nat
  objectDigest : Digest
  objectSize : Nat
  numSubObjects : Nat
  subObjectsSize : Nat
  deriving DecidableEq, Repr

/-- `DirectoryEntry.IsDir`. -/
def DirectoryEntry.IsDir (de : DirectoryEntry) : Bool := de.typ == DirentTypeDirectory

/-- `DirectoryEntry.Marshal`: name, 1-byte type, link target, header digest,
`u64` header size, object digest, `u64` object size, `u32` sub-object count,
`u64` sub-object size — all little-endian, in source order. -/
def directoryEntryMarshal (de : DirectoryEntry) : List Nat :=
  marshalBytes de.name ++ writeByte de.typ ++ marshalBytes de.linkTarget ++
    digestMarshal de.headerDigest ++ writeU64 de.headerSize ++
    digestMarshal de.objectDigest ++ writeU64 de.objectSize ++
    writeU32 de.numSubObjects ++ writeU64 de.subObjectsSize

/-- `UnmarshalDirectoryEntry`. -/
def unmarshalDirectoryEntry (input : List Nat) : Option (DirectoryEntry × List Nat) :=
  match unmarshalBytes input with
  | none => none
  | some (name, r1) =>
    match readByte r1 with
    | none => none
    | some (typ, r2) =>
      match unmarshalBytes r2 with
      | none => none
      | some (lt, r3) =>
        match unmarshalDigest r3 with
        | none => none
        | some (hd, r4) =>
          match readU64 r4 with
          | none => none
          | some (hs, r5) =>
            match unmarshalDigest r5 with
            | none => none
            | some (od, r6) =>
              match readU64 r6 with
              | none => none
              | some (os, r7) =>
                match readU32 r7 with
                | none => none
                | some (ns, r8) =>
                  match readU64 r8 with
                  | none => none
                  | some (ss, r9) => some (⟨name, typ, lt, hd, hs, od, os, ns, ss⟩, r9)

/-- Representability of a directory entry in the wire format. -/
def DirectoryEntryWF (de : DirectoryEntry) : Prop :=
  de.name.length ≤ 65535 ∧ de.typ < 256 ∧ de.linkTarget.length ≤ 65535 ∧
    de.headerDigest.length ≤ 65535 ∧ de.headerSize < 2 ^ 64 ∧
    de.objectDigest.length ≤ 65535 ∧ de.objectSize < 2 ^ 64 ∧
    de.numSubObjects < 2 ^ 32 ∧ de.subObjectsSize < 2 ^ 64

instance (de : DirectoryEntry) : Decidable (DirectoryEntryWF de) := by
  unfold DirectoryEntryWF; infer_instance

/-- `Directory`: a list of directory entries. -/
abbrev Directory := List DirectoryEntry

/-- `Directory.Marshal`: `u32` entry count followed by the marshaled entries. -/
def directoryMarshal (d : Directory) : List Nat :=
  writeU32 d.length ++ (d.map directoryEntryMarshal).flatten

/-- The entry-reading loop of `UnmarshalDirectory`. -/
def unmarshalDirectoryLoop : Nat → List Nat → Option (Directory × List Nat)
  | 0, input => some ([], input)
  | n + 1, input =>
    match unmarshalDirectoryEntry input with
    | none => none
    | some (de, r1) =>
      match unmarshalDirectoryLoop n r1 with
      | none => none
      | some (rest, r2) => some (de :: rest, r2)

/-- `UnmarshalDirectory`: `u32` count then `count` entries. -/
def unmarshalDirectory (input : List Nat) : Option (Directory × List Nat) :=
  match readU32 input with
  | none => none
  | some (n, rest) => unmarshalDirectoryLoop n rest

/-- Representability of a directory in the wire format. -/
def DirectoryWF (d : Directory) : Prop :=
  d.length < 2 ^ 32 ∧ ∀ de ∈ d, DirectoryEntryWF de

instance (d : Directory) : Decidable (DirectoryWF d) := by unfold DirectoryWF; infer_instance

/-! ## Descriptor (`descriptor.go`) -/

/-- `ObjectType` byte values. -/
def ObjectTypeFile : Nat := 0

def ObjectTypeDirectory : Nat := 1

def ObjectTypeHeader : Nat := 2

def ObjectTypeApplication : Nat := 3

/-- `descriptor`: digest, body size, object type and subtree rollups. -/
structure Descriptor where
  digest : Digest
  size : Nat
  objectType : Nat
  numSubObjects : Nat
  subObjectsSize : Nat
  deriving DecidableEq, Repr

/-- `MarshalDescriptor`: digest, `u64` size, 1-byte type, `u32` sub-object
count, `u64` sub-object size. -/
def marshalDescriptor (d : Descriptor) : List Nat :=
  digestMarshal d.digest ++ writeU64 d.size ++ writeByte d.objectType ++
    writeU32 d.numSubObjects ++ writeU64 d.subObjectsSize

/-- `UnmarshalDescriptor`. -/
def unmarshalDescriptor (input : List Nat) : Option (Descriptor × List Nat) :=
  match unmarshalDigest input with
  | none => none
  | some (dg, r1) =>
    match readU64 r1 with
    | none => none
    | some (sz, r2) =>
      match readByte r2 with
      | none => none
      | some (ty, r3) =>
        match readU32 r3 with
        | none => none
        | some (ns, r4) =>
          match readU64 r4 with
          | none => none
          | some (ss, r5) => some (⟨dg, sz, ty, ns, ss⟩, r5)

/-- Representability of a descriptor in the wire format. -/
def DescriptorWF (d : Descriptor) : Prop :=
  d.digest.length ≤ 65535 ∧ d.size < 2 ^ 64 ∧ d.objectType < 256 ∧
    d.numSubObjects < 2 ^ 32 ∧ d.subObjectsSize < 2 ^ 64

instance (d : Descriptor) : Decidable (DescriptorWF d) := by
  unfold DescriptorWF; infer_instance

/-! ## Application / Rootfs (`applications.go`) -/

/-- `RootfsHeader`. -/
structure RootfsHeader where
  digest : Digest
  size : Nat
  deriving DecidableEq, Repr

/-- `RootfsDirectory`. -/
structure RootfsDirectory where
  digest : Digest
  size : Nat
  numSubObjects : Nat
  subObjectsSize : Nat
  deriving DecidableEq, Repr

/-- `Rootfs`. -/
structure Rootfs where
  header : RootfsHeader
  directory : RootfsDirectory
  deriving DecidableEq, Repr

/-- `Application`. -/
structure Application where
  rootfs : Rootfs
  deriving DecidableEq, Repr

/-- `Rootfs.Marshal`: header digest, `u64` header size, directory digest,
`u64` directory size, `u32` sub-object count, `u64` sub-object size. -/
def rootfsMarshal (rfs : Rootfs) : List Nat :=
  digestMarshal rfs.header.digest ++ writeU64 rfs.header.size ++
    digestMarshal rfs.directory.digest ++ writeU64 rfs.directory.size ++
    writeU32 rfs.directory.numSubObjects ++ writeU64 rfs.directory.subObjectsSize

/-- `Application.Marshal` = `a.Rootfs.Marshal`. -/
def applicationMarshal (a : Application) : List Nat := rootfsMarshal a.rootfs

/-- `UnmarshalRootfs`. -/
def unmarshalRootfs (input : List Nat) : Option (Rootfs × List Nat) :=
  match unmarshalDigest input with
  | none => none
  | some (hd, r1) =>
    match readU64 r1 with
    | none => none
    | some (hs, r2) =>
      match unmarshalDigest r2 with
      | none => none
      | some (dd, r3) =>
        match readU64 r3 with
        | none => none
        | some (ds, r4) =>
          match readU32 r4 with
          | none => none
          | some (ns, r5) =>
            match readU64 r5 with
            | none => none
            | some (ss, r6) => some (⟨⟨hd, hs⟩, ⟨dd, ds, ns, ss⟩⟩, r6)

/-- `UnmarshalApplication` = `UnmarshalRootfs` wrapped in an `Application`. -/
def unmarshalApplication (input : List Nat) : Option (Application × List Nat) :=
  match unmarshalRootfs input with
  | none => none
  | some (rfs, r1) => some (⟨rfs⟩, r1)

/-- Representability of an application in the wire format. -/
def ApplicationWF (a : Application) : Prop :=
  a.rootfs.header.digest.length ≤ 65535 ∧ a.rootfs.header.size < 2 ^ 64 ∧
    a.rootfs.directory.digest.length ≤ 65535 ∧ a.rootfs.directory.size < 2 ^ 64 ∧
    a.rootfs.directory.numSubObjects < 2 ^ 32 ∧ a.rootfs.directory.subObjectsSize < 2 ^ 64

instance (a : Application) : Decidable (ApplicationWF a) := by
  unfold ApplicationWF; infer_instance

/-! ## Canonical directory ordering (`Directory.Less`) and rollups -/

/-- `Directory.Less(i, j)`: directories order before non-directories; within
the same kind, ascending byte-wise by name. -/
def dirLess (e1 e2 : DirectoryEntry) : Bool :=
  if e1.IsDir = e2.IsDir then strLt e1.name e2.name else e1.IsDir

/-- Non-strict companion of `Directory.Less`, used to express the post-state
of `sort.Sort(w.directory)`. -/
def dirLE (e1 e2 : DirectoryEntry) : Bool := ! dirLess e2 e1

/-- `Directory.TotalNumSubOjbects` before the final `uint32` reduction: one
header per entry, plus, for regular files and directories, the object itself
and its rolled-up sub-objects. (The name retains the source's spelling.) -/
def directoryNumSubObjectsSum (d : Directory) : Nat :=
  d.length +
    (d.map fun de =>
      if de.typ = DirentTypeRegular ∨ de.typ = DirentTypeDirectory
      then 1 + de.numSubObjects else 0).sum

/-- `Directory.TotalNumSubOjbects`: the Go `uint32` accumulation; wrap-around
addition equals a single final `mod 2^32` reduction of the natural sum. -/
def TotalNumSubOjbects (d : Directory) : Nat :=
  directoryNumSubObjectsSum d % 2 ^ 32

/-- `Directory.TotalSubOjbectSize` before the final `uint64` reduction:
header size + object size + rolled-up sub-object size, over all entries. -/
def directorySubObjectsSizeSum (d : Directory) : Nat :=
  (d.map fun de => de.headerSize + de.objectSize + de.subObjectsSize).sum

/-- `Directory.TotalSubOjbectSize`: the Go `uint64` accumulation. -/
def TotalSubOjbectSize (d : Directory) : Nat :=
  directorySubObjectsSizeSum d % 2 ^ 64

/-- Idealized content digest: the digest of a byte string is modelled as the
byte string itself, an injective (collision-free) stand-in for the tagged
SHA-512/256 digest used by `newObjectWriter`. -/
def hashBytes (body : List Nat) : Digest := body

/-- The result of `directoryWriter.Commit`: the marshaled bytes of the sorted
entry list, and the returned descriptor, whose digest/size come from the
object writer and whose rollups are recomputed from the (sorted) entries. -/
structure CommittedDirectory where
  bytes : List Nat
  desc : Descriptor
  deriving DecidableEq, Repr

/-- `directoryWriter.Commit`: `sort.Sort(w.directory)` (modelled by `sortBy
dirLE`, a sorted permutation), marshal through the object writer, and return
a descriptor carrying the digest and byte size of the marshaled body plus the
`TotalNumSubOjbects`/`TotalSubOjbectSize` rollups. -/
def directoryWriterCommit (entries : Directory) : CommittedDirectory :=
  let sorted := sortBy dirLE entries
  let body := directoryMarshal sorted
  { bytes := body
    desc := { digest := hashBytes body
              size := body.length
              objectType := ObjectTypeDirectory
              numSubObjects := TotalNumSubOjbects sorted
              subObjectsSize := TotalSubOjbectSize sorted } }

/-! ## Repository object store (`objectwriter.go`) -/

/-- Lowercase hex digit (ASCII code), as produced by `hex.EncodeToString`. -/
def hexDigit (n : Nat) : Nat := if n < 10 then 48 + n else 87 + n

/-- Lowercase hex encoding of a byte string (`Digest.Hex`). -/
def hexEncode (b : List Nat) : List Nat :=
  (b.map fun x => [hexDigit (x / 16 % 16), hexDigit (x % 16)]).flatten

/-- An object path: the four components of the digest-sharded layout
`objects/<h0..2>/<h2..4>/<h4..6>/<h6..>`. -/
abbrev ObjectPath := List (List Nat)

/-- `Repository.getObjectPath`: shard the hex digest on 2/2/2/rest
byte boundaries. -/
def getObjectPath (d : Digest) : ObjectPath :=
  [(hexEncode d).take 2, ((hexEncode d).drop 2).take 2,
   ((hexEncode d).drop 4).take 2, (hexEncode d).drop 6]

/-- `filepath.Dir` of an object path: the three shard directories. -/
def objectPathDir (p : ObjectPath) : ObjectPath := p.take 3

/-- Association-list lookup of an object path in the `objects/` tree. -/
def lookupPath (p : ObjectPath) : List (ObjectPath × List Nat) → Option (List Nat)
  | [] => none
  | (q, c) :: rest => if q = p then some c else lookupPath p rest

/-- The filesystem state owned by a repository: committed object files under
`objects/`, temporary files under `temp/` (name ↦ bytes), and the directories
created by `MkdirAll` together with their mode bits. -/
structure RepoFS where
  objects : List (ObjectPath × List Nat)
  temps : List (Nat × List Nat)
  dirs : List (ObjectPath × Nat)
  deriving DecidableEq, Repr

/-- An in-progress `objectWriter`: its temp file name, the bytes written so
far (tee'd into the temp file and the digester), and the object type. -/
structure ObjectWriterState where
  tempName : Nat
  written : List Nat
  objectType : Nat
  deriving DecidableEq, Repr

/-- `objectWriter.Commit`: close the temp file, compute the final digest,
resolve the sharded destination path; if a file already exists there, delete
the temp file (deduplication — `AlreadyExists` treated as success); otherwise
create the parent directories with mode 0755 and atomically rename the temp
file into place. Returns the resulting filesystem and the descriptor
`{digest, size: bytesWritten, objectType}`. -/
def objectWriterCommit (fs : RepoFS) (w : ObjectWriterState) : RepoFS × Descriptor :=
  let digest := hashBytes w.written
  let objectPath := getObjectPath digest
  let desc : Descriptor := ⟨digest, w.written.length, w.objectType, 0, 0⟩
  if (lookupPath objectPath fs.objects).isSome then
    ({ fs with temps := fs.temps.filter fun t => t.1 != w.tempName }, desc)
  else
    ({ objects := (objectPath, w.written) :: fs.objects
       temps := fs.temps.filter fun t => t.1 != w.tempName
       dirs := (objectPathDir objectPath, 0o755) :: fs.dirs }, desc)

/-- `StoreFile`-style ingestion of one blob: stream `content` through a fresh
object writer (temp file `n`) and commit. -/
def storeObject (fs : RepoFS) (n : Nat) (content : List Nat) : RepoFS × Descriptor :=
  objectWriterCommit { fs with temps := (n, content) :: fs.temps }
    ⟨n, content, ObjectTypeFile⟩

/-! ## Object file layout and the send path (`sendObject`, `EnsureObjectType`) -/

/-- Modelled from the spec: the current object writer of the repository (the
version with `Flush`/`Hold`/`TempRef` used by `fetchObjects`) is not under
src/ — src/objectwriter.go is a stale variant without those methods — so the
on-disk layout it produces is taken from the spec: "Object file layout on
disk: one byte of object type tag, then the object body. The digest is
computed over body only; the leading byte is a disambiguator on read but is
not part of size." -/
def specObjectFile (t : Nat) (body : List Nat) : List Nat :=
  writeByte t ++ body

/-- Modelled from the spec: the descriptor returned for a stored object —
digest over the body only (for an arbitrary digest function `hash`), size
equal to the body length, excluding the type byte. -/
def specObjectDescriptor (hash : List Nat → Digest) (t : Nat) (body : List Nat) :
    Descriptor :=
  ⟨hash body, body.length, t, 0, 0⟩

/-- `Repository.sendObject`: strip the leading object type byte
(`UnmarshalObjectType`) and stream the remainder of the object file. -/
def sendObjectBody (file : List Nat) : Option (List Nat) :=
  match readByte file with
  | none => none
  | some (_, body) => some body

/-- `EnsureObjectType`: decode the leading type byte and check it against the
expected type, returning the remaining body stream on success. -/
def EnsureObjectType (input : List Nat) (expected : Nat) : Option (List Nat) :=
  match readByte input with
  | none => none
  | some (t, rest) => if t = expected then some rest else none

/-! ## Sample values used by witnesses -/

/-- A small strictly-key-sorted xattr list. -/
def sampleXattrs : List Xattr := [⟨[97], [1]⟩, ⟨[98], [2, 3]⟩]

/-- A small representable header. -/
def sampleHeader : Header := ⟨420, 0, 1000, 1000, sampleXattrs⟩

/-- A small digest value. -/
def sampleDigest : Digest := [5, 16, 32]

/-- A regular-file directory entry named "b". -/
def sampleEntryFile : DirectoryEntry :=
  ⟨[98], DirentTypeRegular, [], sampleDigest, 7, sampleDigest, 5, 0, 0⟩

/-- A directory-type directory entry named "a". -/
def sampleEntryDir : DirectoryEntry :=
  ⟨[97], DirentTypeDirectory, [], sampleDigest, 7, sampleDigest, 9, 2, 14⟩

/-- A two-entry directory, given in unsorted order. -/
def sampleDirectory : Directory := [sampleEntryFile, sampleEntryDir]

/-- A small representable descriptor. -/
def sampleDescriptor : Descriptor := ⟨sampleDigest, 9, ObjectTypeDirectory, 2, 14⟩

/-- A small representable application. -/
def sampleApplication : Application :=
  ⟨⟨⟨sampleDigest, 7⟩, ⟨sampleDigest, 9, 2, 14⟩⟩⟩

/-- An empty repository filesystem. -/
def emptyRepoFS : RepoFS := ⟨[], [], []⟩

/-! ## Ingestion model (`StoreDirectory`) -/

/-- An abstract filesystem tree for the ingestion model: each node carries
the header that `NewHeader` (lstat) would produce plus its content — file
bytes, subdirectory entries in `Readdirnames` order, or a symlink target. -/
inductive FNode where
  | file (hdr : Header) (content : List Nat)
  | dir (hdr : Header) (entries : List (List Nat × FNode))
  | symlink (hdr : Header) (target : List Nat)

mutual

/-- One iteration of the `StoreDirectory` loop: `PutHeader` the header (its
object body is `headerMarshal hdr`), store the content object per type
(regular file → `StoreFile`, directory → recursive `StoreDirectory`, symlink
→ link target only), and build the `DirectoryEntry`, copying the rollups
from the child descriptor when there is one. -/
def storeEntry : List Nat → FNode → DirectoryEntry
  | name, FNode.file hdr content =>
      ⟨name, DirentTypeRegular, [], hashBytes (headerMarshal hdr),
       (headerMarshal hdr).length, hashBytes content, content.length, 0, 0⟩
  | name, FNode.dir hdr entries =>
      let d := (directoryWriterCommit (storeEntries entries)).desc
      ⟨name, DirentTypeDirectory, [], hashBytes (headerMarshal hdr),
       (headerMarshal hdr).length, d.digest, d.size, d.numSubObjects, d.subObjectsSize⟩
  | name, FNode.symlink hdr target =>
      ⟨name, DirentTypeLink, target, hashBytes (headerMarshal hdr),
       (headerMarshal hdr).length, [], 0, 0, 0⟩

/-- The `StoreDirectory` loop over the `Readdirnames` listing. -/
def storeEntries : List (List Nat × FNode) → Directory
  | [] => []
  | (name, n) :: rest => storeEntry name n :: storeEntries rest

end

/-- `Repository.StoreDirectory`: store every entry and commit the directory
writer, returning its descriptor. -/
def storeDirectory (tree : List (List Nat × FNode)) : Descriptor :=
  (directoryWriterCommit (storeEntries tree)).desc

mutual

/-- The objects referenced by one stored node, with multiplicity, as
(digest, byte size) pairs: its header object, plus for a regular file the
content object, for a directory the directory object and, recursively,
everything its entries reference. -/
def refNode : FNode → List (Digest × Nat)
  | FNode.file hdr content =>
      [(hashBytes (headerMarshal hdr), (headerMarshal hdr).length),
       (hashBytes content, content.length)]
  | FNode.dir hdr entries =>
      (hashBytes (headerMarshal hdr), (headerMarshal hdr).length) ::
        (hashBytes (directoryMarshal (sortBy dirLE (storeEntries entries))),
         (directoryMarshal (sortBy dirLE (storeEntries entries))).length) ::
        refEntries entries
  | FNode.symlink hdr _ => [(hashBytes (headerMarshal hdr), (headerMarshal hdr).length)]

/-- The reference recount over a directory listing (tree walk, counting each
reference). -/
def refEntries : List (List Nat × FNode) → List (Digest × Nat)
  | [] => []
  | (_, n) :: rest => refNode n ++ refEntries rest

end

/-- A directory holding two distinct names with byte-identical regular files
(and identical headers): content-addressing dedups their objects. -/
def dupTree : List (List Nat × FNode) :=
  [([97], FNode.file sampleHeader [7]), ([98], FNode.file sampleHeader [7])]

/-! ## Transfer protocol: fetch driver (`fetchObjects`, `dependencySet`) -/

/-- `ProgressMeter` (all counters are Go `uint32`/`uint64`; the wrap-around
additions are modelled by reducing after each add). -/
structure Progress where
  transferredObjects : Nat
  skippedObjects : Nat
  totalObjects : Nat
  transferredSize : Nat
  skippedSize : Nat
  totalSize : Nat
  deriving DecidableEq, Repr

/-- The remote peer plus object universe: for every digest, the child
descriptors that parsing the digest-verified body of that object yields
(`Application.Dependencies` / `Directory.Dependencies`); digests of
non-composite objects map to `[]`. A successful fetch (no digest mismatch)
always delivers the true body, so the world is a pure function of the
digest. -/
structure World where
  children : Digest → List Descriptor

/-- A `tempRefDep`: the held `TempRef` (identified by its digest) and its
mutable `numMissingDeps` counter (a Go `int`). -/
structure TempRefDep where
  digest : Digest
  count : Int
  deriving DecidableEq, Repr

/-- The in-memory state of one `fetchObjects` call together with the
already-committed contents of the local object store (`objects/`). Trackers
are the `tempRefDep` records, identified by allocation order, since the Go
code shares them by pointer. -/
structure FetchState where
  committed : List Digest
  trackers : List (Nat × TempRefDep)
  deps : List (Digest × List Nat)
  inFlight : List Descriptor
  waitStack : List Descriptor
  requested : List Digest
  nextId : Nat
  progress : Progress
  deriving Repr

/-- `digestSet.Contains`. -/
def digestSetContains (s : List Digest) (d : Digest) : Bool :=
  s.any fun x => decide (x = d)

/-- `digestSet.Remove` (`delete` on the map key). -/
def digestSetRemove (s : List Digest) (d : Digest) : List Digest :=
  s.filter fun x => ! decide (x = d)

/-- Look up the waiter list for a child digest in the `dependencySet`. -/
def depsLookup (m : List (Digest × List Nat)) (d : Digest) : List Nat :=
  match m with
  | [] => []
  | (k, ids) :: rest => if k = d then ids else depsLookup rest d

/-- `dependencySet.Add`: append the tracker to the child digest's list. -/
def depsAdd (m : List (Digest × List Nat)) (d : Digest) (i : Nat) :
    List (Digest × List Nat) :=
  match m with
  | [] => [(d, [i])]
  | (k, ids) :: rest => if k = d then (k, ids ++ [i]) :: rest else (k, ids) :: depsAdd rest d i

/-- `delete(ds, hexKey)`. -/
def depsErase (m : List (Digest × List Nat)) (d : Digest) : List (Digest × List Nat) :=
  m.filter fun e => ! decide (e.1 = d)

/-- Read a tracker by id. -/
def trackerLookup (ts : List (Nat × TempRefDep)) (i : Nat) : Option TempRefDep :=
  match ts with
  | [] => none
  | (j, t) :: rest => if j = i then some t else trackerLookup rest i

/-- `dep.numMissingDeps--` on the shared record. -/
def trackerDec (ts : List (Nat × TempRefDep)) (i : Nat) : List (Nat × TempRefDep) :=
  ts.map fun e => if e.1 = i then (e.1, ⟨e.2.digest, e.2.count - 1⟩) else e

/-- `depTracker.numMissingDeps++` on the shared record. -/
def trackerInc (ts : List (Nat × TempRefDep)) (i : Nat) : List (Nat × TempRefDep) :=
  ts.map fun e => if e.1 = i then (e.1, ⟨e.2.digest, e.2.count + 1⟩) else e

/-- `TempRef.Commit`: rename into place; an object already at its destination
path is a dedup success, so committing is adding the digest to the store if
absent. -/
def commitObject (d : Digest) (s : FetchState) : FetchState :=
  if digestSetContains s.committed d then s else { s with committed := d :: s.committed }

mutual

/-- The loop body of `dependencySet.Remove`: decrement every waiting tracker
once; any tracker whose count reaches zero is committed and its own digest
cascaded. -/
def removeGo (w : World) : Nat → List Nat → FetchState → FetchState
  | _, [], s => s
  | fuel, i :: rest, s =>
      let s1 := { s with trackers := trackerDec s.trackers i }
      let s2 :=
        match trackerLookup s1.trackers i with
        | none => s1
        | some t =>
            if t.count = 0 then removeDep w fuel t.digest (commitObject t.digest s1)
            else s1
      removeGo w fuel rest s2

/-- `dependencySet.Remove(key)`: iterate the waiter list of `key`, then
delete the key. `fuel` bounds the cascade depth; every reachable cascade is
shorter than the number of live trackers (each tracker's counter passes zero
at most once), so the fuel passed by `fetchStep` never runs out. -/
def removeDep (w : World) : Nat → Digest → FetchState → FetchState
  | 0, _, s => s
  | fuel + 1, key, s =>
      let s1 := removeGo w fuel (depsLookup s.deps key) s
      { s1 with deps := depsErase s1.deps key }

end

/-- `progress.SkippedObjects += 1 + desc.NumSubObjects();
progress.SkippedSize += desc.Size() + desc.SubObjectsSize()`. -/
def skipProgress (c : Descriptor) (p : Progress) : Progress :=
  { p with skippedObjects := (p.skippedObjects + (1 + c.numSubObjects)) % 2 ^ 32
           skippedSize := (p.skippedSize + (c.size + c.subObjectsSize)) % 2 ^ 64 }

/-- One iteration of the dependency partition in `fetchObjects`: `queued` and
`have` are computed against the current `requestedDigestSet` and store; a
child that is not `have` increments the held tracker and registers it in
`objectDeps`; a `queued`-or-`have` child is skipped (with rollup-sized
progress bumps); otherwise the child is pushed on the wait stack and added
to the requested set. -/
def childStep (tid : Nat) (c : Descriptor) (s : FetchState) : FetchState :=
  let queued := digestSetContains s.requested c.digest
  let haveIt := !queued && digestSetContains s.committed c.digest
  let s1 :=
    if haveIt then s
    else { s with trackers := trackerInc s.trackers tid
                  deps := depsAdd s.deps c.digest tid }
  if queued || haveIt then
    { s1 with progress := skipProgress c s1.progress }
  else
    { s1 with waitStack := c :: s1.waitStack
              requested := c.digest :: s1.requested }

/-- The dependency partition loop (`for _, desc := range dependencies`). -/
def processDeps (tid : Nat) : List Descriptor → FetchState → FetchState
  | [], s => s
  | c :: rest, s => processDeps tid rest (childStep tid c s)

/-- The queue-refill loop: while the in-flight queue is not full (capacity
256) and the wait stack is not empty, pop the stack and push the queue
(sending a WANT). -/
def refillGo : List Descriptor → List Descriptor → List Descriptor × List Descriptor
  | q, [] => (q, [])
  | q, d :: rest => if 256 ≤ q.length then (q, d :: rest) else refillGo (q ++ [d]) rest

/-- Apply the refill loop to the state. -/
def refill (s : FetchState) : FetchState :=
  { s with inFlight := (refillGo s.inFlight s.waitStack).1
           waitStack := (refillGo s.inFlight s.waitStack).2 }

/-- Fuel passed to the commit cascade: one more than the number of live
trackers (each nested `Remove` is preceded by a distinct tracker's counter
first reaching zero). -/
def removeFuel (s : FetchState) : Nat := s.trackers.length + 1

/-- Whether `receiveObject` parses the body for child descriptors
(`ObjectTypeApplication` or `ObjectTypeDirectory`). -/
def isCompositeType (t : Nat) : Bool :=
  decide (t = ObjectTypeApplication) || decide (t = ObjectTypeDirectory)

/-- One iteration of the `fetchObjects` loop: peek the head descriptor,
receive and digest-verify its body (counting transferred bytes and objects),
pop it and drop it from the requested set, allocate the `depTracker`,
partition the parsed children, commit-and-cascade when no dependency is
missing, and refill the in-flight queue from the wait stack. An empty
in-flight queue leaves the state unchanged (the loop guard). -/
def fetchStep (w : World) (s : FetchState) : FetchState :=
  match s.inFlight with
  | [] => s
  | desc :: restQ =>
      let depsL := if isCompositeType desc.objectType then w.children desc.digest else []
      let p1 := { s.progress with
                    transferredSize := (s.progress.transferredSize + desc.size) % 2 ^ 64 }
      let p2 := { p1 with transferredObjects := (p1.transferredObjects + 1) % 2 ^ 32 }
      let tid := s.nextId
      let s1 := { s with progress := p2
                         inFlight := restQ
                         requested := digestSetRemove s.requested desc.digest
                         trackers := s.trackers ++ [(tid, ⟨desc.digest, 0⟩)]
                         nextId := tid + 1 }
      let s2 := processDeps tid depsL s1
      let s3 :=
        match trackerLookup s2.trackers tid with
        | none => s2
        | some t =>
            if t.count = 0 then
              removeDep w (removeFuel s2) desc.digest (commitObject desc.digest s2)
            else s2
      refill s3

/-- The `for !inFlightQueue.Empty()` loop, fuelled. -/
def fetchLoop (w : World) : Nat → FetchState → FetchState
  | 0, s => s
  | n + 1, s => if s.inFlight.isEmpty then s else fetchLoop w n (fetchStep w s)

/-- The initial state of `fetchObjects`: push the root descriptor, mark it
requested, send the WANT. -/
def initFetchState (root : Descriptor) (committed0 : List Digest) : FetchState :=
  { committed := committed0, trackers := [], deps := [], inFlight := [root],
    waitStack := [], requested := [root.digest], nextId := 0,
    progress := ⟨0, 0, 0, 0, 0, 0⟩ }

/-- `Repository.fetchObjects` on a world, from a store whose committed
digests are `committed0`. -/
def fetchObjects (w : World) (fuel : Nat) (root : Descriptor)
    (committed0 : List Digest) : FetchState :=
  fetchLoop w fuel (initFetchState root committed0)

/-! ## Descriptor queue / stack (`descriptorList`) -/

/-- `descriptorList`: a `container/list` of descriptors with an advisory
maximum size, backing both `DescriptorQueue` (FIFO) and `DescriptorStack`
(LIFO). The front element is the head of `items`. -/
structure DescriptorList where
  items : List Descriptor
  maxSize : Int
  deriving DecidableEq, Repr

/-- `descriptorList.Empty`. -/
def DescriptorList.Empty (l : DescriptorList) : Bool := decide (l.items.length = 0)

/-- `descriptorList.Full`: advisory; always false for `maxSize ≤ 0`. -/
def DescriptorList.Full (l : DescriptorList) : Bool :=
  if l.maxSize ≤ 0 then false else decide (l.maxSize ≤ l.items.length)

/-- Total embedding of `descriptorList.Peek`: the Go method dereferences
`l.Front().Value`, which is a nil dereference (panic) on an empty list, so
the model returns an `Option`. -/
def DescriptorList.peek (l : DescriptorList) : Option Descriptor := l.items.head?

/-- Total embedding of `descriptorList.Pop` (`l.Remove(l.Front())`): `none`
models the nil-dereference panic on an empty list. -/
def DescriptorList.pop (l : DescriptorList) : Option (Descriptor × DescriptorList) :=
  match l.items with
  | [] => none
  | d :: rest => some (d, ⟨rest, l.maxSize⟩)

/-! ## Concrete worlds used by witnesses and counterexamples -/

/-- Descriptor of a small application object. -/
def descApp : Descriptor := ⟨[10], 30, ObjectTypeApplication, 4, 100⟩

/-- Descriptor of the application's rootfs header object. -/
def descHdr : Descriptor := ⟨[11], 20, ObjectTypeHeader, 0, 0⟩

/-- Descriptor of the application's rootfs directory object. -/
def descDir : Descriptor := ⟨[12], 40, ObjectTypeDirectory, 2, 50⟩

/-- Descriptor of a header referenced by the directory. -/
def descHdr2 : Descriptor := ⟨[13], 20, ObjectTypeHeader, 0, 0⟩

/-- Descriptor of a file referenced by the directory. -/
def descFile : Descriptor := ⟨[14], 30, ObjectTypeFile, 0, 0⟩

/-- A small application world: app → {header, directory}; directory →
{header2, file}; leaves have no children. -/
def sampleWorld : World :=
  ⟨fun d => if d = [10] then [descHdr, descDir]
            else if d = [12] then [descHdr2, descFile]
            else []⟩

/-- Root directory of the diamond world. -/
def descR : Descriptor := ⟨[1], 10, ObjectTypeDirectory, 5, 90⟩

/-- First child directory of the diamond world. -/
def descA : Descriptor := ⟨[2], 10, ObjectTypeDirectory, 1, 30⟩

/-- Second child directory of the diamond world. -/
def descB : Descriptor := ⟨[3], 10, ObjectTypeDirectory, 1, 30⟩

/-- The shared grandchild of the diamond world. -/
def descC : Descriptor := ⟨[4], 30, ObjectTypeFile, 0, 0⟩

/-- A diamond world: R → {A, B}, A → {C}, B → {C}; when the second parent of
C is received, C is already in the requested set. -/
def diamondWorld : World :=
  ⟨fun d => if d = [1] then [descA, descB]
            else if d = [2] then [descC]
            else if d = [3] then [descC]
            else []⟩

/-! ## Closure invariant of the fetch protocol

The machinery used to verify C1: the committed digest set stays closed
under reference throughout `fetchObjects`. The invariant counts dependency
edges (`deps` registrations) against the trackers' missing counts. -/

/-- The digests referenced by an object's body (its children's digests). -/
def childDigests (w : World) (d : Digest) : List Digest :=
  (w.children d).map Descriptor.digest

/-- A digest set is closed under reference in a world: every child of a
member is a member. -/
def closedUnderRef (w : World) (C : List Digest) : Prop :=
  ∀ d ∈ C, ∀ c ∈ w.children d, c.digest ∈ C

/-- How many of `δ`'s references (with multiplicity) point outside `C`. -/
def uncommittedChildCount (w : World) (C : List Digest) (δ : Digest) : Nat :=
  (childDigests w δ).countP fun γ => ! decide (γ ∈ C)

/-- Total number of registered dependency edges naming tracker `i`. -/
def edgeCountM (m : List (Digest × List Nat)) (i : Nat) : Nat :=
  (m.map fun e => e.2.count i).sum

/-- Edges naming tracker `i` that sit under an already-committed child key. -/
def committedEdgeCountM (m : List (Digest × List Nat)) (C : List Digest) (i : Nat) : Nat :=
  (m.map fun e => if e.1 ∈ C then e.2.count i else 0).sum

/-- Edges naming tracker `i` under a not-yet-committed child key. -/
def uncommittedEdgeCountM (m : List (Digest × List Nat)) (C : List Digest) (i : Nat) : Nat :=
  (m.map fun e => if e.1 ∈ C then 0 else e.2.count i).sum

/-- Ghost bookkeeping for the commit cascade: the active `Remove` frames,
each the key being removed together with the prefix of its waiter snapshot
whose decrements have already been applied. -/
def pendCount (F : List (Digest × List Nat)) (i : Nat) : Nat :=
  (F.map fun f => f.2.count i).sum

/-- The queued descriptors are honest about compositeness: a queued
descriptor with a non-composite type has a childless digest, so skipping the
body parse loses no references. -/
def queueOK (w : World) (s : FetchState) : Prop :=
  ∀ d : Descriptor, d ∈ s.inFlight ∨ d ∈ s.waitStack →
    isCompositeType d.objectType = false → w.children d.digest = []

/-- The fetch-loop invariant, relative to the active cascade frames `F`.
`vbound` is the counting heart: a live tracker's missing count, plus the
decrements already applied by active frames, covers its references to
uncommitted digests and every registered edge under a committed key.
`framesOK` ties each frame's processed prefix to the still-present waiter
list of its (already committed) key. -/
structure FetchInv (w : World) (F : List (Digest × List Nat)) (s : FetchState) : Prop where
  closed : closedUnderRef w s.committed
  vbound : ∀ i t, trackerLookup s.trackers i = some t → ¬ t.digest ∈ s.committed →
    (uncommittedChildCount w s.committed t.digest + committedEdgeCountM s.deps s.committed i : Int)
      ≤ t.count + pendCount F i
  edgeBound : ∀ γ i t, trackerLookup s.trackers i = some t →
    (depsLookup s.deps γ).count i ≤ (childDigests w t.digest).count γ
  edgeOwner : ∀ γ i, i ∈ depsLookup s.deps γ →
    ∃ t, trackerLookup s.trackers i = some t ∧ γ ∈ childDigests w t.digest
  keysNodup : (s.deps.map Prod.fst).Nodup
  idsFresh : ∀ i t, trackerLookup s.trackers i = some t → i < s.nextId
  framesOK : ∀ f, f ∈ F → f.1 ∈ s.committed ∧
    ∀ j, f.2.count j ≤ (depsLookup s.deps f.1).count j

/-- Post-state relation of the commit cascade: the invariant is
re-established for frames `F`, the committed set grows, waiter lists of keys
ranked below `bound` survive, and the queues are untouched. -/
def RemovePost (w : World) (rank : Digest → Nat) (F : List (Digest × List Nat))
    (bound : Nat) (s s' : FetchState) : Prop :=
  FetchInv w F s' ∧
  (∀ x ∈ s.committed, x ∈ s'.committed) ∧
  (∀ γ, rank γ < bound → depsLookup s'.deps γ = depsLookup s.deps γ) ∧
  s'.inFlight = s.inFlight ∧
  s'.waitStack = s.waitStack ∧
  s'.requested = s.requested ∧
  s'.nextId = s.nextId

/-! ## Theorems -/

theorem readU16_writeU16 (n : Nat) (r : List Nat) :
    readU16 (writeU16 n ++ r) = some (n % 2 ^ 16, r) := by
  simp only [writeU16, readU16, List.cons_append, List.nil_append]
  congr 1
  congr 1
  omega

theorem readU32_writeU32 (n : Nat) (r : List Nat) :
    readU32 (writeU32 n ++ r) = some (n % 2 ^ 32, r) := by
  simp only [writeU32, readU32, List.cons_append, List.nil_append]
  congr 1
  congr 1
  omega

theorem readU64_writeU64 (n : Nat) (r : List Nat) :
    readU64 (writeU64 n ++ r) = some (n % 2 ^ 64, r) := by
  simp only [writeU64, readU64, List.cons_append, List.nil_append]
  congr 1
  congr 1
  omega

theorem readByte_writeByte (b : Nat) (r : List Nat) :
    readByte (writeByte b ++ r) = some (b % 256, r) := by
  simp [writeByte, readByte]

theorem unmarshalBytes_marshalBytes (buf : List Nat) (r : List Nat)
    (hlen : buf.length ≤ 65535) :
    unmarshalBytes (marshalBytes buf ++ r) = some (buf, r) := by
  simp only [marshalBytes, List.append_assoc, unmarshalBytes, readU16_writeU16]
  have hmod : buf.length % 2 ^ 16 = buf.length := Nat.mod_eq_of_lt (by omega)
  rw [hmod]
  have hge : ¬ (buf ++ r).length < buf.length := by
    simp [List.length_append]
  simp only [hge, if_false]
  rw [List.take_append_of_le_length (le_refl _), List.take_length,
      List.drop_append_of_le_length (le_refl _), List.drop_length]
  simp

theorem readExact_append (buf r : List Nat) :
    readExact buf.length (buf ++ r) = some (buf, r) := by
  have hge : ¬ (buf ++ r).length < buf.length := by simp [List.length_append]
  rw [readExact, if_neg hge, List.take_append_of_le_length (le_refl _), List.take_length,
      List.drop_append_of_le_length (le_refl _), List.drop_length]
  simp

theorem strLt_asymm : ∀ a b : List Nat, strLt a b = true → strLt b a = false
  | _, [], h => by simp [strLt] at h
  | [], _ :: _, _ => by simp [strLt]
  | a :: as, b :: bs, h => by
      simp only [strLt, Bool.or_eq_true, Bool.and_eq_true, beq_iff_eq,
        decide_eq_true_eq] at h ⊢
      rcases h with h | ⟨rfl, h⟩
      · simp only [Bool.or_eq_false_iff, Bool.and_eq_false_iff]
        exact ⟨by simp; omega, Or.inl (by simp; omega)⟩
      · simp [strLt_asymm as bs h]

theorem strLt_trans : ∀ a b c : List Nat,
    strLt a b = true → strLt b c = true → strLt a c = true
  | _, _, [], _, h2 => by simp [strLt] at h2
  | _, [], _ :: _, h1, _ => by simp [strLt] at h1
  | [], _ :: _, _ :: _, _, _ => by simp [strLt]
  | a :: as, b :: bs, c :: cs, h1, h2 => by
      simp only [strLt, Bool.or_eq_true, Bool.and_eq_true, beq_iff_eq,
        decide_eq_true_eq] at h1 h2 ⊢
      rcases h1 with h1 | ⟨rfl, h1⟩
      · rcases h2 with h2 | ⟨rfl, h2⟩
        · exact Or.inl (by omega)
        · exact Or.inl h1
      · rcases h2 with h2 | ⟨rfl, h2⟩
        · exact Or.inl h2
        · exact Or.inr ⟨rfl, strLt_trans as bs cs h1 h2⟩

theorem strLt_conn : ∀ a b : List Nat,
    strLt a b = false → strLt b a = false → a = b
  | [], [], _, _ => rfl
  | [], _ :: _, h1, _ => by simp [strLt] at h1
  | _ :: _, [], _, h2 => by simp [strLt] at h2
  | a :: as, b :: bs, h1, h2 => by
      simp only [strLt, Bool.or_eq_false_iff, Bool.and_eq_false_iff, beq_iff_eq,
        decide_eq_false_iff_not] at h1 h2
      obtain ⟨hab, h1⟩ := h1
      obtain ⟨hba, h2⟩ := h2
      have heq : a = b := by omega
      subst heq
      rcases h1 with h1 | h1
      · simp at h1
      · rcases h2 with h2 | h2
        · simp at h2
        · rw [strLt_conn as bs h1 h2]

theorem insertBy_perm (le : α → α → Bool) (a : α) :
    ∀ l : List α, (insertBy le a l).Perm (a :: l)
  | [] => List.Perm.refl _
  | b :: bs => by
      rw [insertBy]
      by_cases h : le a b
      · simp [h]
      · rw [if_neg h]
        exact ((insertBy_perm le a bs).cons b).trans (List.Perm.swap a b bs)

theorem sortBy_perm (le : α → α → Bool) : ∀ l : List α, (sortBy le l).Perm l
  | [] => List.Perm.refl _
  | a :: as => (insertBy_perm le a (sortBy le as)).trans ((sortBy_perm le as).cons a)

theorem insertBy_pairwise (le : α → α → Bool)
    (htotal : ∀ a b, le a b = true ∨ le b a = true)
    (htrans : ∀ a b c, le a b = true → le b c = true → le a c = true) (a : α) :
    ∀ l : List α, l.Pairwise (fun x y => le x y = true) →
      (insertBy le a l).Pairwise (fun x y => le x y = true)
  | [], _ => by simp [insertBy]
  | b :: bs, h => by
      rw [insertBy]
      rcases List.pairwise_cons.mp h with ⟨hb, hbs⟩
      by_cases hab : le a b
      · rw [if_pos hab]
        refine List.pairwise_cons.mpr ⟨?_, h⟩
        intro z hz
        rcases List.mem_cons.mp hz with rfl | hz
        · exact hab
        · exact htrans a b z hab (hb z hz)
      · rw [if_neg hab]
        refine List.pairwise_cons.mpr ⟨?_, insertBy_pairwise le htotal htrans a bs hbs⟩
        intro z hz
        rcases List.mem_cons.mp ((insertBy_perm le a bs).mem_iff.mp hz) with rfl | hz
        · rcases htotal z b with h' | h'
          · exact absurd h' hab
          · exact h'
        · exact hb z hz

theorem sortBy_pairwise (le : α → α → Bool)
    (htotal : ∀ a b, le a b = true ∨ le b a = true)
    (htrans : ∀ a b c, le a b = true → le b c = true → le a c = true) :
    ∀ l : List α, (sortBy le l).Pairwise (fun x y => le x y = true)
  | [] => List.Pairwise.nil
  | a :: as => insertBy_pairwise le htotal htrans a _ (sortBy_pairwise le htotal htrans as)

/-- A sorted list is fixed by `sortBy`. -/
theorem sortBy_eq_self (le : α → α → Bool) :
    ∀ l : List α, l.Pairwise (fun x y => le x y = true) → sortBy le l = l
  | [], _ => rfl
  | a :: as, h => by
      rcases List.pairwise_cons.mp h with ⟨ha, has⟩
      rw [sortBy, sortBy_eq_self le as has]
      cases as with
      | nil => rfl
      | cons b bs => rw [insertBy, if_pos (ha b (List.mem_cons_self b bs))]

/-- Two sorted permutations of each other are equal, provided `le` is
antisymmetric on the elements involved (which holds whenever the sort keys
are duplicate-free). -/
theorem sorted_perm_eq (le : α → α → Bool) :
    ∀ l₁ l₂ : List α,
      (∀ a ∈ l₁, ∀ b ∈ l₁, le a b = true → le b a = true → a = b) →
      l₁.Perm l₂ →
      l₁.Pairwise (fun x y => le x y = true) →
      l₂.Pairwise (fun x y => le x y = true) → l₁ = l₂
  | [], l₂, _, hp, _, _ => (hp.symm.eq_nil).symm
  | a :: as, l₂, hanti, hp, h1, h2 => by
      cases l₂ with
      | nil => simpa using hp.eq_nil
      | cons b bs =>
        rcases List.pairwise_cons.mp h1 with ⟨ha, has⟩
        rcases List.pairwise_cons.mp h2 with ⟨hb, hbs⟩
        have hab : a = b := by
          have hbmem : b ∈ a :: as := hp.symm.subset (List.mem_cons_self b bs)
          rcases List.mem_cons.mp hbmem with rfl | hbmem'
          · rfl
          · have hamem : a ∈ b :: bs := hp.subset (List.mem_cons_self a as)
            rcases List.mem_cons.mp hamem with rfl | hamem'
            · rfl
            · exact hanti a (List.mem_cons_self a as) b hbmem
                (ha b hbmem') (hb a hamem')
        subst hab
        have htail : as.Perm bs := (List.perm_cons a).mp hp
        have hanti' : ∀ x ∈ as, ∀ y ∈ as, le x y = true → le y x = true → x = y :=
          fun x hx y hy => hanti x (List.mem_cons_of_mem a hx) y (List.mem_cons_of_mem a hy)
        rw [sorted_perm_eq le as bs hanti' htail has hbs]

theorem unmarshalDigest_digestMarshal (d : Digest) (r : List Nat)
    (hlen : d.length ≤ 65535) :
    unmarshalDigest (digestMarshal d ++ r) = some (d, r) :=
  unmarshalBytes_marshalBytes d r hlen

theorem unmarshalXattrsLoop_roundtrip (x : List Xattr) (r : List Nat)
    (hwf : ∀ a ∈ x, XattrWF a) :
    unmarshalXattrsLoop x.length ((x.map xattrEncode).flatten ++ r) = some (x, r) := by
  induction x with
  | nil => simp [unmarshalXattrsLoop]
  | cons a as ih =>
      obtain ⟨hk, hv⟩ := hwf a (List.mem_cons_self a as)
      have hkmod : a.key.length % 2 ^ 16 = a.key.length := Nat.mod_eq_of_lt (by omega)
      have hvmod : a.val.length % 2 ^ 16 = a.val.length := Nat.mod_eq_of_lt (by omega)
      have ih' := ih (fun b hb => hwf b (List.mem_cons_of_mem a hb))
      simp only [List.length_cons, List.map_cons, List.flatten_cons, xattrEncode,
        unmarshalXattrsLoop, List.append_assoc, readU16_writeU16, hkmod, hvmod,
        readExact_append]
      simp only [List.append_assoc] at ih'
      simp [ih']

theorem unmarshalXattrs_xattrsMarshal (x : List Xattr) (r : List Nat)
    (hwf : XattrsWF x) :
    unmarshalXattrs (xattrsMarshal x ++ r) = some (x, r) := by
  obtain ⟨hlen, hall⟩ := hwf
  have hmod : x.length % 2 ^ 16 = x.length := Nat.mod_eq_of_lt (by omega)
  rw [xattrsMarshal, unmarshalXattrs, List.append_assoc, readU16_writeU16, hmod]
  exact unmarshalXattrsLoop_roundtrip x r hall

theorem xattrLE_total : ∀ a b : Xattr, xattrLE a b = true ∨ xattrLE b a = true := by
  intro a b
  unfold xattrLE
  by_cases h : strLt b.key a.key
  · simp [strLt_asymm _ _ h]
  · simp [h]

theorem xattrLE_trans : ∀ a b c : Xattr,
    xattrLE a b = true → xattrLE b c = true → xattrLE a c = true := by
  intro a b c hab hbc
  simp only [xattrLE, Bool.not_eq_true'] at hab hbc ⊢
  rcases Bool.eq_false_or_eq_true (strLt c.key a.key) with h | h
  · exfalso
    rcases Bool.eq_false_or_eq_true (strLt b.key c.key) with h2 | h2
    · have := strLt_trans _ _ _ h2 h
      exact absurd this (by simp [hab])
    · have hcb : c.key = b.key := strLt_conn _ _ hbc h2
      rw [hcb] at h
      exact absurd h (by simp [hab])
  · exact h

theorem NewXattrs_sorted_eq_self (x : List Xattr)
    (hs : x.Pairwise (fun a b => strLt a.key b.key = true)) : NewXattrs x = x := by
  refine sortBy_eq_self xattrLE x (hs.imp ?_)
  intro a b h
  simp [xattrLE, strLt_asymm _ _ h]

theorem unmarshalHeader_headerMarshal (h : Header) (r : List Nat)
    (hwf : HeaderWF h) :
    unmarshalHeader (headerMarshal h ++ r) = some (h, r) := by
  obtain ⟨h1, h2, h3, h4, hx, hsorted⟩ := hwf
  have e1 : h.mode % 2 ^ 32 = h.mode := Nat.mod_eq_of_lt h1
  have e2 : h.rdev % 2 ^ 32 = h.rdev := Nat.mod_eq_of_lt h2
  have e3 : h.uid % 2 ^ 32 = h.uid := Nat.mod_eq_of_lt h3
  have e4 : h.gid % 2 ^ 32 = h.gid := Nat.mod_eq_of_lt h4
  rw [headerMarshal, NewXattrs_sorted_eq_self _ hsorted]
  simp only [unmarshalHeader, List.append_assoc, readU32_writeU32, e1, e2, e3, e4,
    unmarshalXattrs_xattrsMarshal _ _ hx]

theorem unmarshalDirectoryEntry_marshal (de : DirectoryEntry) (r : List Nat)
    (hwf : DirectoryEntryWF de) :
    unmarshalDirectoryEntry (directoryEntryMarshal de ++ r) = some (de, r) := by
  obtain ⟨h1, h2, h3, h4, h5, h6, h7, h8, h9⟩ := hwf
  simp only [directoryEntryMarshal, List.append_assoc, unmarshalDirectoryEntry,
    unmarshalBytes_marshalBytes de.name _ h1, readByte_writeByte,
    unmarshalBytes_marshalBytes de.linkTarget _ h3,
    unmarshalDigest_digestMarshal de.headerDigest _ h4,
    unmarshalDigest_digestMarshal de.objectDigest _ h6,
    readU64_writeU64, readU32_writeU32, Nat.mod_eq_of_lt h2, Nat.mod_eq_of_lt h5,
    Nat.mod_eq_of_lt h7, Nat.mod_eq_of_lt h8, Nat.mod_eq_of_lt h9]

theorem unmarshalDirectoryLoop_roundtrip (d : Directory) (r : List Nat)
    (hwf : ∀ de ∈ d, DirectoryEntryWF de) :
    unmarshalDirectoryLoop d.length ((d.map directoryEntryMarshal).flatten ++ r)
      = some (d, r) := by
  induction d with
  | nil => simp [unmarshalDirectoryLoop]
  | cons de des ih =>
      have ih' := ih (fun e he => hwf e (List.mem_cons_of_mem de he))
      simp only [List.length_cons, List.map_cons, List.flatten_cons, unmarshalDirectoryLoop,
        List.append_assoc, unmarshalDirectoryEntry_marshal de _
          (hwf de (List.mem_cons_self de des)), ih']

theorem unmarshalDirectory_directoryMarshal (d : Directory) (r : List Nat)
    (hwf : DirectoryWF d) :
    unmarshalDirectory (directoryMarshal d ++ r) = some (d, r) := by
  obtain ⟨hlen, hall⟩ := hwf
  have hmod : d.length % 2 ^ 32 = d.length := Nat.mod_eq_of_lt hlen
  rw [directoryMarshal, unmarshalDirectory, List.append_assoc, readU32_writeU32, hmod]
  exact unmarshalDirectoryLoop_roundtrip d r hall

theorem unmarshalDescriptor_marshalDescriptor (d : Descriptor) (r : List Nat)
    (hwf : DescriptorWF d) :
    unmarshalDescriptor (marshalDescriptor d ++ r) = some (d, r) := by
  obtain ⟨h1, h2, h3, h4, h5⟩ := hwf
  simp only [marshalDescriptor, List.append_assoc, unmarshalDescriptor,
    unmarshalDigest_digestMarshal d.digest _ h1, readU64_writeU64, readByte_writeByte,
    readU32_writeU32, Nat.mod_eq_of_lt h2, Nat.mod_eq_of_lt h3, Nat.mod_eq_of_lt h4,
    Nat.mod_eq_of_lt h5]

theorem unmarshalApplication_applicationMarshal (a : Application) (r : List Nat)
    (hwf : ApplicationWF a) :
    unmarshalApplication (applicationMarshal a ++ r) = some (a, r) := by
  obtain ⟨h1, h2, h3, h4, h5, h6⟩ := hwf
  simp only [applicationMarshal, rootfsMarshal, List.append_assoc, unmarshalApplication,
    unmarshalRootfs, unmarshalDigest_digestMarshal _ _ h1,
    unmarshalDigest_digestMarshal _ _ h3, readU64_writeU64, readU32_writeU32,
    Nat.mod_eq_of_lt h2, Nat.mod_eq_of_lt h4, Nat.mod_eq_of_lt h5, Nat.mod_eq_of_lt h6]

theorem dirLess_asymm (e1 e2 : DirectoryEntry) :
    dirLess e1 e2 = true → dirLess e2 e1 = false := by
  unfold dirLess
  by_cases h : e1.IsDir = e2.IsDir
  · rw [if_pos h, if_pos h.symm]
    exact strLt_asymm _ _
  · rw [if_neg h, if_neg (fun hh => h hh.symm)]
    intro h1
    cases h2 : e2.IsDir
    · rfl
    · rw [h1, h2] at h
      exact absurd rfl h

theorem dirLess_trans (e1 e2 e3 : DirectoryEntry) :
    dirLess e1 e2 = true → dirLess e2 e3 = true → dirLess e1 e3 = true := by
  unfold dirLess
  by_cases h12 : e1.IsDir = e2.IsDir
  · by_cases h23 : e2.IsDir = e3.IsDir
    · rw [if_pos h12, if_pos h23, if_pos (h12.trans h23)]
      exact strLt_trans _ _ _
    · have h13 : ¬ e1.IsDir = e3.IsDir := by rw [h12]; exact h23
      rw [if_pos h12, if_neg h23, if_neg h13]
      intro _ h2
      rw [h12]
      exact h2
  · by_cases h23 : e2.IsDir = e3.IsDir
    · have h13 : ¬ e1.IsDir = e3.IsDir := by rw [← h23]; exact h12
      rw [if_neg h12, if_pos h23, if_neg h13]
      exact fun h _ => h
    · rw [if_neg h12, if_neg h23]
      intro h1 h2
      exact absurd (h1.trans h2.symm) h12

theorem dirLess_conn (e1 e2 : DirectoryEntry) :
    dirLess e1 e2 = false → dirLess e2 e1 = false →
      e1.IsDir = e2.IsDir ∧ e1.name = e2.name := by
  unfold dirLess
  by_cases h : e1.IsDir = e2.IsDir
  · rw [if_pos h, if_pos h.symm]
    intro h1 h2
    exact ⟨h, strLt_conn _ _ h1 h2⟩
  · rw [if_neg h, if_neg (fun hh => h hh.symm)]
    intro h1 h2
    rw [h1, h2] at h
    exact absurd rfl h

/-- `dirLess` only inspects the entry kind and the name. -/
theorem dirLess_congr_left (e1 e2 x : DirectoryEntry)
    (hd : e1.IsDir = e2.IsDir) (hn : e1.name = e2.name) :
    dirLess e1 x = dirLess e2 x := by
  unfold dirLess
  rw [hd, hn]

theorem dirLE_total : ∀ a b : DirectoryEntry, dirLE a b = true ∨ dirLE b a = true := by
  intro a b
  unfold dirLE
  rcases Bool.eq_false_or_eq_true (dirLess b a) with h | h
  · exact Or.inr (by simp [dirLess_asymm _ _ h])
  · exact Or.inl (by simp [h])

theorem dirLE_trans : ∀ a b c : DirectoryEntry,
    dirLE a b = true → dirLE b c = true → dirLE a c = true := by
  intro a b c hab hbc
  simp only [dirLE, Bool.not_eq_true'] at hab hbc ⊢
  rcases Bool.eq_false_or_eq_true (dirLess c a) with h | h
  · exfalso
    rcases Bool.eq_false_or_eq_true (dirLess b c) with h2 | h2
    · have := dirLess_trans _ _ _ h2 h
      exact absurd this (by simp [hab])
    · obtain ⟨hd, hn⟩ := dirLess_conn _ _ hbc h2
      rw [dirLess_congr_left c b a hd hn] at h
      exact absurd h (by simp [hab])
  · exact h

theorem directoryNumSubObjectsSum_perm (d1 d2 : Directory) (h : d1.Perm d2) :
    directoryNumSubObjectsSum d1 = directoryNumSubObjectsSum d2 := by
  unfold directoryNumSubObjectsSum
  rw [h.length_eq, (h.map _).sum_eq]

theorem directorySubObjectsSizeSum_perm (d1 d2 : Directory) (h : d1.Perm d2) :
    directorySubObjectsSizeSum d1 = directorySubObjectsSizeSum d2 := by
  unfold directorySubObjectsSizeSum
  rw [(h.map _).sum_eq]


theorem lookupPath_none_countP (p : ObjectPath) :
    ∀ l : List (ObjectPath × List Nat), lookupPath p l = none →
      (l.countP fun e => decide (e.1 = p)) = 0
  | [], _ => rfl
  | (q, c) :: rest, h => by
      rw [lookupPath] at h
      by_cases hq : q = p
      · rw [if_pos hq] at h
        cases h
      · rw [if_neg hq] at h
        simp only [List.countP_cons, decide_eq_true_eq, hq, decide_False,
          if_false, Nat.add_zero]
        exact lookupPath_none_countP p rest h

theorem lookupPath_cons_self (p : ObjectPath) (c : List Nat)
    (l : List (ObjectPath × List Nat)) : lookupPath p ((p, c) :: l) = some c := by
  rw [lookupPath, if_pos rfl]

theorem pairwise_key_ne_inj (f : α → β) :
    ∀ l : List α, l.Pairwise (fun x y => f x ≠ f y) →
      ∀ a ∈ l, ∀ b ∈ l, f a = f b → a = b
  | [], _, a, ha, _, _, _ => absurd ha (List.not_mem_nil a)
  | x :: xs, h, a, ha, b, hb, hfab => by
      rcases List.pairwise_cons.mp h with ⟨hx, hxs⟩
      rcases List.mem_cons.mp ha with rfl | ha'
      · rcases List.mem_cons.mp hb with rfl | hb'
        · rfl
        · exact absurd hfab (hx b hb')
      · rcases List.mem_cons.mp hb with rfl | hb'
        · exact absurd hfab.symm (hx a ha')
        · exact pairwise_key_ne_inj f xs hxs a ha' b hb' hfab

theorem dirLE_imp_ordering (e1 e2 : DirectoryEntry) (h : dirLE e1 e2 = true) :
    (e1.IsDir = true ∧ e2.IsDir = false) ∨
      (e1.IsDir = e2.IsDir ∧ strLt e2.name e1.name = false) := by
  simp only [dirLE, Bool.not_eq_true'] at h
  unfold dirLess at h
  by_cases hd : e2.IsDir = e1.IsDir
  · rw [if_pos hd] at h
    exact Or.inr ⟨hd.symm, h⟩
  · rw [if_neg hd] at h
    have h1 : e1.IsDir = true := by
      cases he : e1.IsDir
      · exact absurd (h.trans he.symm) hd
      · rfl
    exact Or.inl ⟨h1, h⟩

theorem xattrLE_antisymm_keys (a b : Xattr)
    (h1 : xattrLE a b = true) (h2 : xattrLE b a = true) : a.key = b.key := by
  simp only [xattrLE, Bool.not_eq_true'] at h1 h2
  exact strLt_conn _ _ h2 h1

theorem NewXattrs_eq_of_perm (x1 x2 : List Xattr) (hperm : x1.Perm x2)
    (hkeys : x1.Pairwise fun a b => a.key ≠ b.key) : NewXattrs x1 = NewXattrs x2 := by
  refine sorted_perm_eq xattrLE (NewXattrs x1) (NewXattrs x2) ?_ ?_ ?_ ?_
  · intro a ha b hb h1 h2
    have ha' : a ∈ x1 := (sortBy_perm xattrLE x1).mem_iff.mp ha
    have hb' : b ∈ x1 := (sortBy_perm xattrLE x1).mem_iff.mp hb
    exact pairwise_key_ne_inj Xattr.key x1 hkeys a ha' b hb'
      (xattrLE_antisymm_keys a b h1 h2)
  · exact (sortBy_perm xattrLE x1).trans (hperm.trans (sortBy_perm xattrLE x2).symm)
  · exact sortBy_pairwise xattrLE xattrLE_total xattrLE_trans x1
  · exact sortBy_pairwise xattrLE xattrLE_total xattrLE_trans x2

theorem sortBy_dirLE_eq_of_perm (d1 d2 : Directory) (hperm : d1.Perm d2)
    (hnames : d1.Pairwise fun a b => a.name ≠ b.name) :
    sortBy dirLE d1 = sortBy dirLE d2 := by
  refine sorted_perm_eq dirLE (sortBy dirLE d1) (sortBy dirLE d2) ?_ ?_ ?_ ?_
  · intro a ha b hb h1 h2
    have ha' : a ∈ d1 := (sortBy_perm dirLE d1).mem_iff.mp ha
    have hb' : b ∈ d1 := (sortBy_perm dirLE d1).mem_iff.mp hb
    simp only [dirLE, Bool.not_eq_true'] at h1 h2
    obtain ⟨_, hn⟩ := dirLess_conn a b h2 h1
    exact pairwise_key_ne_inj DirectoryEntry.name d1 hnames a ha' b hb' hn
  · exact (sortBy_perm dirLE d1).trans (hperm.trans (sortBy_perm dirLE d2).symm)
  · exact sortBy_pairwise dirLE dirLE_total dirLE_trans d1
  · exact sortBy_pairwise dirLE dirLE_total dirLE_trans d2

/-- Claim C5: codec round-trip — for every representable Header,
DirectoryEntry, Directory, Application, Descriptor, Digest and Xattrs value,
unmarshalling its marshalled bytes returns the same value (and leaves any
trailing input untouched). -/
theorem claim_C5_codec_round_trip :
    (∀ (h : Header) (r : List Nat), HeaderWF h →
        unmarshalHeader (headerMarshal h ++ r) = some (h, r)) ∧
    (∀ (de : DirectoryEntry) (r : List Nat), DirectoryEntryWF de →
        unmarshalDirectoryEntry (directoryEntryMarshal de ++ r) = some (de, r)) ∧
    (∀ (d : Directory) (r : List Nat), DirectoryWF d →
        unmarshalDirectory (directoryMarshal d ++ r) = some (d, r)) ∧
    (∀ (a : Application) (r : List Nat), ApplicationWF a →
        unmarshalApplication (applicationMarshal a ++ r) = some (a, r)) ∧
    (∀ (d : Descriptor) (r : List Nat), DescriptorWF d →
        unmarshalDescriptor (marshalDescriptor d ++ r) = some (d, r)) ∧
    (∀ (d : Digest) (r : List Nat), d.length ≤ 65535 →
        unmarshalDigest (digestMarshal d ++ r) = some (d, r)) ∧
    (∀ (x : List Xattr) (r : List Nat), XattrsWF x →
        unmarshalXattrs (xattrsMarshal x ++ r) = some (x, r)) :=
  ⟨unmarshalHeader_headerMarshal, unmarshalDirectoryEntry_marshal,
   unmarshalDirectory_directoryMarshal, unmarshalApplication_applicationMarshal,
   unmarshalDescriptor_marshalDescriptor, unmarshalDigest_digestMarshal,
   unmarshalXattrs_xattrsMarshal⟩

/-- Witness for C5 at concrete values of every codec type. -/
theorem claim_C5_codec_round_trip_witness :
    unmarshalHeader (headerMarshal sampleHeader ++ [9]) = some (sampleHeader, [9]) ∧
    unmarshalDirectoryEntry (directoryEntryMarshal sampleEntryDir ++ [9])
      = some (sampleEntryDir, [9]) ∧
    unmarshalDirectory (directoryMarshal sampleDirectory ++ [9])
      = some (sampleDirectory, [9]) ∧
    unmarshalApplication (applicationMarshal sampleApplication ++ [9])
      = some (sampleApplication, [9]) ∧
    unmarshalDescriptor (marshalDescriptor sampleDescriptor ++ [9])
      = some (sampleDescriptor, [9]) ∧
    unmarshalDigest (digestMarshal sampleDigest ++ [9]) = some (sampleDigest, [9]) ∧
    unmarshalXattrs (xattrsMarshal sampleXattrs ++ [9]) = some (sampleXattrs, [9]) :=
  ⟨claim_C5_codec_round_trip.1 sampleHeader [9] (by decide),
   claim_C5_codec_round_trip.2.1 sampleEntryDir [9] (by decide),
   claim_C5_codec_round_trip.2.2.1 sampleDirectory [9] (by decide),
   claim_C5_codec_round_trip.2.2.2.1 sampleApplication [9] (by decide),
   claim_C5_codec_round_trip.2.2.2.2.1 sampleDescriptor [9] (by decide),
   claim_C5_codec_round_trip.2.2.2.2.2.1 sampleDigest [9] (by decide),
   claim_C5_codec_round_trip.2.2.2.2.2.2 sampleXattrs [9] (by decide)⟩

/-- Claim C9: 16-bit length-prefixed byte strings (amended). The codec writes
`len(b) mod 2^16` as the length field while emitting all of `b`; for every
`b` with `len(b) ≤ 65535` the length field equals `len(b)` and
`unmarshalBytes (marshalBytes b)` returns `b`. (The 65535-byte cap is *not*
enforced for longer inputs — see the counterexample.) -/
theorem claim_C9_length_field :
    ∀ (b r : List Nat),
      readU16 (marshalBytes b) = some (b.length % 2 ^ 16, b) ∧
      (b.length ≤ 65535 → unmarshalBytes (marshalBytes b ++ r) = some (b, r)) := by
  intro b r
  constructor
  · rw [marshalBytes]
    exact readU16_writeU16 b.length b
  · exact unmarshalBytes_marshalBytes b r

/-- Witness for C9 at a concrete in-range byte string. -/
theorem claim_C9_length_field_witness :
    readU16 (marshalBytes [7, 8, 9]) = some (3, [7, 8, 9]) ∧
    unmarshalBytes (marshalBytes [7, 8, 9] ++ [1]) = some ([7, 8, 9], [1]) :=
  ⟨(claim_C9_length_field [7, 8, 9] [1]).1,
   (claim_C9_length_field [7, 8, 9] [1]).2 (by decide)⟩

theorem unmarshalBytes_marshalBytes_take (b : List Nat) :
    unmarshalBytes (marshalBytes b)
      = some (b.take (b.length % 2 ^ 16), b.drop (b.length % 2 ^ 16)) := by
  have hle : b.length % 2 ^ 16 ≤ b.length := Nat.mod_le _ _
  simp only [marshalBytes, unmarshalBytes, readU16_writeU16]
  rw [if_neg (by omega)]

theorem unmarshalBytes_marshalBytes_overflow (b : List Nat) (hlen : b.length = 65536) :
    unmarshalBytes (marshalBytes b) = some ([], b) := by
  have hz : (65536 : Nat) % 2 ^ 16 = 0 := by norm_num
  rw [unmarshalBytes_marshalBytes_take, hlen, hz]
  rw [List.take_zero]
  rw [List.drop_zero]

theorem marshalBytes_overflow_lenField :
    readU16 (marshalBytes (List.replicate 65536 0)) = some (0, List.replicate 65536 0) := by
  have hlen : (List.replicate 65536 (0 : Nat)).length = 65536 := List.length_replicate _ _
  have hz : (65536 : Nat) % 2 ^ 16 = 0 := by norm_num
  rw [marshalBytes, readU16_writeU16, hlen, hz]

theorem replicate_65536_ne_nil : (List.replicate 65536 (0 : Nat)) ≠ [] := by
  have hlen : (List.replicate 65536 (0 : Nat)).length = 65536 := List.length_replicate _ _
  intro h
  have h2 := congrArg List.length h
  rw [hlen] at h2
  exact absurd h2 (by decide)

/-- Counterexample for C9 as stated: for a 65536-byte input the codec does not
enforce the 65535-byte cap — `marshalBytes` writes a length field of
`65536 mod 2^16 = 0` while emitting all 65536 bytes, so the round trip
returns the empty string rather than the (non-empty) input. -/
theorem claim_C9_counterexample :
    readU16 (marshalBytes (List.replicate 65536 0)) = some (0, List.replicate 65536 0) ∧
    unmarshalBytes (marshalBytes (List.replicate 65536 0))
      = some ([], List.replicate 65536 0) ∧
    (List.replicate 65536 (0 : Nat)) ≠ [] :=
  ⟨marshalBytes_overflow_lenField,
   unmarshalBytes_marshalBytes_overflow _ (List.length_replicate _ _),
   replicate_65536_ne_nil⟩

/-- Claim C4: on-disk object layout and digest domain (spec-modelled object
writer): an object file is one type-tag byte followed by the body; the digest
is computed over the body only and the descriptor size is the body length
(the tag contributes to neither); on read the leading byte is stripped
(`sendObject`) or checked (`EnsureObjectType`) as a type disambiguator. -/
theorem claim_C4_object_layout (hash : List Nat → Digest) (t : Nat)
    (body : List Nat) (ht : t < 256) :
    specObjectFile t body = t :: body ∧
    (specObjectDescriptor hash t body).digest = hash body ∧
    (specObjectDescriptor hash t body).size = body.length ∧
    sendObjectBody (specObjectFile t body) = some body ∧
    EnsureObjectType (specObjectFile t body) t = some body := by
  have hmod : t % 256 = t := Nat.mod_eq_of_lt ht
  refine ⟨?_, rfl, rfl, ?_, ?_⟩
  · rw [specObjectFile, writeByte, hmod]
    rfl
  · rw [specObjectFile, writeByte, hmod]
    simp [sendObjectBody, readByte]
  · rw [specObjectFile, writeByte, hmod]
    simp [EnsureObjectType, readByte, hmod]

/-- Witness for C4 with the idealized digest at a concrete file body. -/
theorem claim_C4_object_layout_witness :
    specObjectFile 1 [7, 8] = 1 :: [7, 8] ∧
    (specObjectDescriptor hashBytes 1 [7, 8]).digest = hashBytes [7, 8] ∧
    (specObjectDescriptor hashBytes 1 [7, 8]).size = [7, 8].length ∧
    sendObjectBody (specObjectFile 1 [7, 8]) = some [7, 8] ∧
    EnsureObjectType (specObjectFile 1 [7, 8]) 1 = some [7, 8] :=
  claim_C4_object_layout hashBytes 1 [7, 8] (by decide)

theorem storeObject_objects_some (fs : RepoFS) (n : Nat) (c : List Nat)
    (h : (lookupPath (getObjectPath (hashBytes c)) fs.objects).isSome = true) :
    (storeObject fs n c).1.objects = fs.objects := by
  simp [storeObject, objectWriterCommit, h]

theorem storeObject_objects_none (fs : RepoFS) (n : Nat) (c : List Nat)
    (h : lookupPath (getObjectPath (hashBytes c)) fs.objects = none) :
    (storeObject fs n c).1.objects = (getObjectPath (hashBytes c), c) :: fs.objects := by
  simp [storeObject, objectWriterCommit, h]

/-- Claim C7: commit deduplication and atomic placement. If the sharded
destination path already holds a file, `objectWriter.Commit` deletes the temp
file and succeeds, leaving `objects/` unchanged; otherwise it creates the
parent directories with mode 0755 and renames the temp file into place.
Storing the same content twice yields exactly one object file. -/
theorem claim_C7_commit_dedup :
    (∀ (fs : RepoFS) (w : ObjectWriterState),
        (lookupPath (getObjectPath (hashBytes w.written)) fs.objects).isSome →
        (objectWriterCommit fs w).1.objects = fs.objects ∧
        (objectWriterCommit fs w).1.dirs = fs.dirs ∧
        (objectWriterCommit fs w).1.temps
          = fs.temps.filter (fun t => t.1 != w.tempName) ∧
        (objectWriterCommit fs w).2
          = ⟨hashBytes w.written, w.written.length, w.objectType, 0, 0⟩) ∧
    (∀ (fs : RepoFS) (w : ObjectWriterState),
        lookupPath (getObjectPath (hashBytes w.written)) fs.objects = none →
        (objectWriterCommit fs w).1.objects
          = (getObjectPath (hashBytes w.written), w.written) :: fs.objects ∧
        (objectWriterCommit fs w).1.dirs
          = (objectPathDir (getObjectPath (hashBytes w.written)), 0o755) :: fs.dirs ∧
        (objectWriterCommit fs w).1.temps
          = fs.temps.filter (fun t => t.1 != w.tempName) ∧
        (objectWriterCommit fs w).2
          = ⟨hashBytes w.written, w.written.length, w.objectType, 0, 0⟩) ∧
    (∀ (fs : RepoFS) (n1 n2 : Nat) (c : List Nat),
        (storeObject (storeObject fs n1 c).1 n2 c).1.objects
          = (storeObject fs n1 c).1.objects ∧
        (lookupPath (getObjectPath (hashBytes c)) fs.objects = none →
          ((storeObject (storeObject fs n1 c).1 n2 c).1.objects.countP
            fun e => decide (e.1 = getObjectPath (hashBytes c))) = 1)) := by
  refine ⟨?_, ?_, ?_⟩
  · intro fs w h
    simp [objectWriterCommit, h]
  · intro fs w h
    simp [objectWriterCommit, h]
  · intro fs n1 n2 c
    cases hcase : lookupPath (getObjectPath (hashBytes c)) fs.objects with
    | none =>
        have hfirst :
            (storeObject fs n1 c).1.objects
              = (getObjectPath (hashBytes c), c) :: fs.objects :=
          storeObject_objects_none fs n1 c hcase
        have hsecond :
            (storeObject (storeObject fs n1 c).1 n2 c).1.objects
              = (storeObject fs n1 c).1.objects :=
          storeObject_objects_some _ n2 c
            (by rw [hfirst, lookupPath_cons_self]; rfl)
        refine ⟨hsecond, fun _ => ?_⟩
        rw [hsecond, hfirst, List.countP_cons, lookupPath_none_countP _ _ hcase]
        simp
    | some v =>
        have hfirst : (storeObject fs n1 c).1.objects = fs.objects :=
          storeObject_objects_some fs n1 c (by rw [hcase]; rfl)
        have hsecond :
            (storeObject (storeObject fs n1 c).1 n2 c).1.objects
              = (storeObject fs n1 c).1.objects :=
          storeObject_objects_some _ n2 c (by rw [hfirst, hcase]; rfl)
        refine ⟨hsecond, fun habs => ?_⟩
        exact Option.noConfusion habs

/-- Witness for C7: two stores of the same bytes into an empty repository
leave a single object file. -/
theorem claim_C7_commit_dedup_witness :
    (storeObject (storeObject emptyRepoFS 1 [7, 8]).1 2 [7, 8]).1.objects
        = (storeObject emptyRepoFS 1 [7, 8]).1.objects ∧
    ((storeObject (storeObject emptyRepoFS 1 [7, 8]).1 2 [7, 8]).1.objects.countP
        fun e => decide (e.1 = getObjectPath (hashBytes [7, 8]))) = 1 :=
  ⟨(claim_C7_commit_dedup.2.2 emptyRepoFS 1 2 [7, 8]).1,
   (claim_C7_commit_dedup.2.2 emptyRepoFS 1 2 [7, 8]).2 (by decide)⟩

/-- Claim C8: Header encoding determinism — two headers with equal mode,
rdev, uid and gid and xattr lists that are permutations of each other
(equal key-value mappings, any iteration order, keys duplicate-free as in a
Go map) marshal to identical bytes and therefore have equal digests. -/
theorem claim_C8_header_determinism (h1 h2 : Header)
    (hmode : h1.mode = h2.mode) (hrdev : h1.rdev = h2.rdev)
    (huid : h1.uid = h2.uid) (hgid : h1.gid = h2.gid)
    (hperm : h1.xattrs.Perm h2.xattrs)
    (hkeys : h1.xattrs.Pairwise fun a b => a.key ≠ b.key) :
    headerMarshal h1 = headerMarshal h2 ∧
      hashBytes (headerMarshal h1) = hashBytes (headerMarshal h2) := by
  have hx : NewXattrs h1.xattrs = NewXattrs h2.xattrs :=
    NewXattrs_eq_of_perm h1.xattrs h2.xattrs hperm hkeys
  have hm : headerMarshal h1 = headerMarshal h2 := by
    rw [headerMarshal, headerMarshal, hmode, hrdev, huid, hgid, hx]
  exact ⟨hm, by rw [hm]⟩

/-- Witness for C8: the same xattr map presented in two iteration orders. -/
theorem claim_C8_header_determinism_witness :
    headerMarshal ⟨420, 0, 1000, 1000, [⟨[97], [1]⟩, ⟨[98], [2, 3]⟩]⟩
      = headerMarshal ⟨420, 0, 1000, 1000, [⟨[98], [2, 3]⟩, ⟨[97], [1]⟩]⟩ :=
  (claim_C8_header_determinism
    ⟨420, 0, 1000, 1000, [⟨[97], [1]⟩, ⟨[98], [2, 3]⟩]⟩
    ⟨420, 0, 1000, 1000, [⟨[98], [2, 3]⟩, ⟨[97], [1]⟩]⟩
    rfl rfl rfl rfl (by decide) (by decide)).1

/-- Claim C6: canonical directory ordering — the bytes committed by the
directory writer are the marshal of a sorted permutation of the added
entries (directories first, then the other types, each group ascending
byte-wise by name), and two entry lists that are permutations of each other
with duplicate-free names commit to identical bytes and descriptors (hence
equal digests). -/
theorem claim_C6_canonical_ordering :
    (∀ entries : Directory, ∃ s : Directory,
        (directoryWriterCommit entries).bytes = directoryMarshal s ∧
        s.Perm entries ∧
        s.Pairwise (fun e1 e2 =>
          (e1.IsDir = true ∧ e2.IsDir = false) ∨
          (e1.IsDir = e2.IsDir ∧ strLt e2.name e1.name = false))) ∧
    (∀ entries entries' : Directory, entries.Perm entries' →
        (entries.Pairwise fun a b => a.name ≠ b.name) →
        directoryWriterCommit entries = directoryWriterCommit entries') := by
  constructor
  · intro entries
    refine ⟨sortBy dirLE entries, rfl, sortBy_perm dirLE entries, ?_⟩
    exact (sortBy_pairwise dirLE dirLE_total dirLE_trans entries).imp
      (fun h => dirLE_imp_ordering _ _ h)
  · intro entries entries' hperm hnames
    have hs : sortBy dirLE entries = sortBy dirLE entries' :=
      sortBy_dirLE_eq_of_perm entries entries' hperm hnames
    rw [directoryWriterCommit, directoryWriterCommit, hs]

/-- Witness for C6: a two-entry directory added in either order commits to
the same bytes and descriptor, with the directory entry serialized first. -/
theorem claim_C6_canonical_ordering_witness :
    (∃ s : Directory,
        (directoryWriterCommit sampleDirectory).bytes = directoryMarshal s ∧
        s.Perm sampleDirectory ∧
        s.Pairwise (fun e1 e2 =>
          (e1.IsDir = true ∧ e2.IsDir = false) ∨
          (e1.IsDir = e2.IsDir ∧ strLt e2.name e1.name = false))) ∧
    directoryWriterCommit sampleDirectory
      = directoryWriterCommit [sampleEntryDir, sampleEntryFile] :=
  ⟨claim_C6_canonical_ordering.1 sampleDirectory,
   claim_C6_canonical_ordering.2 sampleDirectory [sampleEntryDir, sampleEntryFile]
     (by decide) (by decide)⟩

theorem directoryWriterCommit_numSubObjects (entries : Directory) :
    (directoryWriterCommit entries).desc.numSubObjects
      = directoryNumSubObjectsSum entries % 2 ^ 32 := by
  show TotalNumSubOjbects (sortBy dirLE entries) = _
  rw [TotalNumSubOjbects,
    directoryNumSubObjectsSum_perm _ _ (sortBy_perm dirLE entries)]

theorem directoryWriterCommit_subObjectsSize (entries : Directory) :
    (directoryWriterCommit entries).desc.subObjectsSize
      = directorySubObjectsSizeSum entries % 2 ^ 64 := by
  show TotalSubOjbectSize (sortBy dirLE entries) = _
  rw [TotalSubOjbectSize,
    directorySubObjectsSizeSum_perm _ _ (sortBy_perm dirLE entries)]

mutual

theorem refNode_count (name : List Nat) (n : FNode) :
    (1 + (if (storeEntry name n).typ = DirentTypeRegular ∨
              (storeEntry name n).typ = DirentTypeDirectory
          then 1 + (storeEntry name n).numSubObjects else 0)) % 2 ^ 32
      = (refNode n).length % 2 ^ 32 := by
  cases n with
  | file hdr content => rfl
  | symlink hdr target => rfl
  | dir hdr entries =>
      have ih := refEntries_count entries
      have hd : (storeEntry name (FNode.dir hdr entries)).numSubObjects
          = directoryNumSubObjectsSum (storeEntries entries) % 2 ^ 32 := by
        show (directoryWriterCommit (storeEntries entries)).desc.numSubObjects = _
        exact directoryWriterCommit_numSubObjects (storeEntries entries)
      have hty : (storeEntry name (FNode.dir hdr entries)).typ = DirentTypeDirectory := rfl
      rw [if_pos (Or.inr hty), hd]
      have hlen : (refNode (FNode.dir hdr entries)).length
          = 2 + (refEntries entries).length := by
        show (_ :: _ :: refEntries entries).length = _
        simp only [List.length_cons]
        omega
      rw [hlen]
      omega

theorem refEntries_count (l : List (List Nat × FNode)) :
    directoryNumSubObjectsSum (storeEntries l) % 2 ^ 32
      = (refEntries l).length % 2 ^ 32 := by
  cases l with
  | nil => rfl
  | cons p rest =>
      obtain ⟨name, n⟩ := p
      have ihn := refNode_count name n
      have ihl := refEntries_count rest
      have hunf : storeEntries ((name, n) :: rest)
          = storeEntry name n :: storeEntries rest := rfl
      have hsum : directoryNumSubObjectsSum (storeEntry name n :: storeEntries rest)
          = (1 + (if (storeEntry name n).typ = DirentTypeRegular ∨
                      (storeEntry name n).typ = DirentTypeDirectory
                  then 1 + (storeEntry name n).numSubObjects else 0))
            + directoryNumSubObjectsSum (storeEntries rest) := by
        simp only [directoryNumSubObjectsSum, List.length_cons, List.map_cons,
          List.sum_cons]
        omega
      have hrefs : (refEntries ((name, n) :: rest)).length
          = (refNode n).length + (refEntries rest).length := by
        show (refNode n ++ refEntries rest).length = _
        exact List.length_append _ _
      rw [hunf, hsum, hrefs]
      omega

end

mutual

theorem refNode_size (name : List Nat) (n : FNode) :
    ((storeEntry name n).headerSize + (storeEntry name n).objectSize
        + (storeEntry name n).subObjectsSize) % 2 ^ 64
      = ((refNode n).map Prod.snd).sum % 2 ^ 64 := by
  cases n with
  | file hdr content => simp [storeEntry, refNode]
  | symlink hdr target => simp [storeEntry, refNode]
  | dir hdr entries =>
      have ih := refEntries_size entries
      have hd : (storeEntry name (FNode.dir hdr entries)).subObjectsSize
          = directorySubObjectsSizeSum (storeEntries entries) % 2 ^ 64 := by
        show (directoryWriterCommit (storeEntries entries)).desc.subObjectsSize = _
        exact directoryWriterCommit_subObjectsSize (storeEntries entries)
      have hh : (storeEntry name (FNode.dir hdr entries)).headerSize
          = (headerMarshal hdr).length := rfl
      have ho : (storeEntry name (FNode.dir hdr entries)).objectSize
          = (directoryMarshal (sortBy dirLE (storeEntries entries))).length := rfl
      have hr : ((refNode (FNode.dir hdr entries)).map Prod.snd).sum
          = (headerMarshal hdr).length
            + (directoryMarshal (sortBy dirLE (storeEntries entries))).length
            + ((refEntries entries).map Prod.snd).sum := by
        show ((_ :: _ :: refEntries entries).map Prod.snd).sum = _
        simp [Nat.add_assoc]
      rw [hd, hh, ho, hr]
      omega

theorem refEntries_size (l : List (List Nat × FNode)) :
    directorySubObjectsSizeSum (storeEntries l) % 2 ^ 64
      = ((refEntries l).map Prod.snd).sum % 2 ^ 64 := by
  cases l with
  | nil => rfl
  | cons p rest =>
      obtain ⟨name, n⟩ := p
      have ihn := refNode_size name n
      have ihl := refEntries_size rest
      have hunf : storeEntries ((name, n) :: rest)
          = storeEntry name n :: storeEntries rest := rfl
      have hsum : directorySubObjectsSizeSum (storeEntry name n :: storeEntries rest)
          = ((storeEntry name n).headerSize + (storeEntry name n).objectSize
              + (storeEntry name n).subObjectsSize)
            + directorySubObjectsSizeSum (storeEntries rest) := by
        simp only [directorySubObjectsSizeSum, List.map_cons, List.sum_cons]
      have hrefs : ((refEntries ((name, n) :: rest)).map Prod.snd).sum
          = ((refNode n).map Prod.snd).sum + ((refEntries rest).map Prod.snd).sum := by
        show (((refNode n ++ refEntries rest)).map Prod.snd).sum = _
        rw [List.map_append, List.sum_append]
      rw [hunf, hsum, hrefs]
      omega

end

/-- Claim C2 (amended): the descriptor returned by `directoryWriter.Commit`
carries exactly the claimed per-entry rollup sums (reduced to the `uint32` /
`uint64` widths), and for a tree built by `StoreDirectory` these equal a
recount of the transitively referenced objects *with multiplicity* (a tree
walk counting every reference) and their byte sizes — not a count of
*distinct* objects, which deduplication can make smaller. -/
theorem claim_C2_rollup :
    (∀ entries : Directory,
        (directoryWriterCommit entries).desc.numSubObjects
          = (entries.length + (entries.map fun de =>
              if de.typ = DirentTypeRegular ∨ de.typ = DirentTypeDirectory
              then 1 + de.numSubObjects else 0).sum) % 2 ^ 32 ∧
        (directoryWriterCommit entries).desc.subObjectsSize
          = ((entries.map fun de =>
              de.headerSize + de.objectSize + de.subObjectsSize).sum) % 2 ^ 64) ∧
    (∀ tree : List (List Nat × FNode),
        (storeDirectory tree).numSubObjects = (refEntries tree).length % 2 ^ 32 ∧
        (storeDirectory tree).subObjectsSize
          = ((refEntries tree).map Prod.snd).sum % 2 ^ 64) := by
  constructor
  · intro entries
    exact ⟨directoryWriterCommit_numSubObjects entries,
           directoryWriterCommit_subObjectsSize entries⟩
  · intro tree
    constructor
    · show (directoryWriterCommit (storeEntries tree)).desc.numSubObjects = _
      rw [directoryWriterCommit_numSubObjects, refEntries_count]
    · show (directoryWriterCommit (storeEntries tree)).desc.subObjectsSize = _
      rw [directoryWriterCommit_subObjectsSize, refEntries_size]

/-- Counterexample for C2 as stated: in a tree whose directory carries
two entries holding byte-identical files (and equal headers), the rollup
counts four references while only two distinct objects are stored, and the
rolled-up size likewise exceeds the distinct-object byte recount. -/
theorem claim_C2_counterexample :
    (storeDirectory dupTree).numSubObjects = 4 ∧
    ((refEntries dupTree).map Prod.fst).dedup.length = 2 ∧
    (storeDirectory dupTree).numSubObjects
      ≠ ((refEntries dupTree).map Prod.fst).dedup.length ∧
    (storeDirectory dupTree).subObjectsSize
      ≠ (((refEntries dupTree).dedup).map Prod.snd).sum := by
  decide

/-- Claim C10: `Peek` and `Pop` on an empty `descriptorList` dereference the
nil front element (modelled by `none` in the total embedding) and succeed
exactly under the non-empty precondition; `fetchObjects` only peeks and pops
under the loop's non-empty guard, so its head access always succeeds, and
the empty case of `fetchStep` is the loop exit and touches nothing. -/
theorem claim_C10_peek_pop_guard :
    (∀ l : DescriptorList,
        (l.Empty = true → l.peek = none ∧ l.pop = none) ∧
        (l.Empty = false →
          (∃ d, l.peek = some d) ∧ ∃ d l', l.pop = some (d, l'))) ∧
    (∀ (w : World) (s : FetchState),
        (s.inFlight = [] → fetchStep w s = s) ∧
        (s.inFlight ≠ [] →
          ∃ d, (DescriptorList.mk s.inFlight 256).peek = some d)) := by
  constructor
  · intro l
    constructor
    · intro h
      have hi : l.items = [] := by
        cases hi : l.items with
        | nil => rfl
        | cons a rest => rw [DescriptorList.Empty, hi] at h; simp at h
      simp [DescriptorList.peek, DescriptorList.pop, hi]
    · intro h
      cases hi : l.items with
      | nil => rw [DescriptorList.Empty, hi] at h; simp at h
      | cons a rest =>
          refine ⟨⟨a, ?_⟩, a, ⟨rest, l.maxSize⟩, ?_⟩
          · simp [DescriptorList.peek, hi]
          · simp [DescriptorList.pop, hi]
  · intro w s
    constructor
    · intro h
      simp only [fetchStep, h]
    · intro h
      cases hi : s.inFlight with
      | nil => exact absurd hi h
      | cons a rest => exact ⟨a, by simp [DescriptorList.peek, hi]⟩

/-- Witness for C10 at a concrete empty list, a concrete non-empty list, and
a concrete drained fetch state. -/
theorem claim_C10_peek_pop_guard_witness :
    ((DescriptorList.mk [] 256).peek = none ∧ (DescriptorList.mk [] 256).pop = none) ∧
    (∃ d, (DescriptorList.mk [descApp] 256).peek = some d) ∧
    fetchStep sampleWorld { initFetchState descApp [] with inFlight := [] }
      = { initFetchState descApp [] with inFlight := [] } :=
  ⟨(claim_C10_peek_pop_guard.1 ⟨[], 256⟩).1 (by decide),
   ((claim_C10_peek_pop_guard.1 ⟨[descApp], 256⟩).2 (by decide)).1,
   (claim_C10_peek_pop_guard.2 sampleWorld _).1 rfl⟩

/-- Claim C3 (amended): the per-child partition of `fetchObjects`. A child
that is queued (in the requested set) or already present is SKIPped with the
rollup-sized counter bumps `1 + numSubObjects` and `size + subObjectsSize`;
the held parent's missing count is incremented and the parent registered in
`deps[child]` for every child that is not already committed in the local
store — that is, for missing children and also for queued ones — and exactly
the children that are neither present nor queued are pushed onto the wait
stack and added to the requested set. -/
theorem claim_C3_child_partition (tid : Nat) (c : Descriptor) (s : FetchState) :
    (digestSetContains s.requested c.digest = true →
      childStep tid c s
        = { s with trackers := trackerInc s.trackers tid
                   deps := depsAdd s.deps c.digest tid
                   progress := skipProgress c s.progress }) ∧
    (digestSetContains s.requested c.digest = false →
     digestSetContains s.committed c.digest = true →
      childStep tid c s = { s with progress := skipProgress c s.progress }) ∧
    (digestSetContains s.requested c.digest = false →
     digestSetContains s.committed c.digest = false →
      childStep tid c s
        = { s with trackers := trackerInc s.trackers tid
                   deps := depsAdd s.deps c.digest tid
                   waitStack := c :: s.waitStack
                   requested := c.digest :: s.requested }) := by
  refine ⟨?_, ?_, ?_⟩
  · intro hq
    simp [childStep, hq]
  · intro hq hc
    simp [childStep, hq, hc]
  · intro hq hc
    simp [childStep, hq, hc]

/-- Witness for the amended C3 partition rule, covering all three cases at
concrete states. -/
theorem claim_C3_child_partition_witness :
    childStep 0 descC (initFetchState descC [])
      = { initFetchState descC [] with
            trackers := trackerInc (initFetchState descC []).trackers 0
            deps := depsAdd (initFetchState descC []).deps descC.digest 0
            progress := skipProgress descC (initFetchState descC []).progress } ∧
    childStep 0 descC (initFetchState descR [descC.digest])
      = { initFetchState descR [descC.digest] with
            progress := skipProgress descC (initFetchState descR [descC.digest]).progress } ∧
    childStep 0 descC (initFetchState descR [])
      = { initFetchState descR [] with
            trackers := trackerInc (initFetchState descR []).trackers 0
            deps := depsAdd (initFetchState descR []).deps descC.digest 0
            waitStack := descC :: (initFetchState descR []).waitStack
            requested := descC.digest :: (initFetchState descR []).requested } :=
  ⟨(claim_C3_child_partition 0 descC (initFetchState descC [])).1 (by decide),
   (claim_C3_child_partition 0 descC (initFetchState descR [descC.digest])).2.1
     (by decide) (by decide),
   (claim_C3_child_partition 0 descC (initFetchState descR [])).2.2
     (by decide) (by decide)⟩

/-- Counterexample for C3 as stated: in the diamond world the third received
object is `A` (queue head after two steps, tracker id 2), whose only child
`C` is at that point queued (in the requested set) and not in the store. The
claim predicts `A`'s missing count stays 0 and `A` is not registered in
`deps[C]` — the increment should happen "exactly for the missing children
(those neither present nor queued)" — but the code increments the count for
every not-present child: `A`'s tracker ends the step with count 1 and id 2
appears in `deps[C]`. -/
theorem claim_C3_counterexample :
    (fetchLoop diamondWorld 2 (initFetchState descR [])).inFlight.head? = some descA ∧
    (fetchLoop diamondWorld 2 (initFetchState descR [])).nextId = 2 ∧
    diamondWorld.children descA.digest = [descC] ∧
    digestSetContains (fetchLoop diamondWorld 2 (initFetchState descR [])).requested
      descC.digest = true ∧
    digestSetContains (fetchLoop diamondWorld 2 (initFetchState descR [])).committed
      descC.digest = false ∧
    trackerLookup (fetchLoop diamondWorld 3 (initFetchState descR [])).trackers 2
      = some ⟨descA.digest, 1⟩ ∧
    depsLookup (fetchLoop diamondWorld 3 (initFetchState descR [])).deps descC.digest
      = [1, 2] := by
  decide

/-- Reduction of `depsLookup` on a cons cell. -/
theorem depsLookup_cons (a : Digest) (ids : List Nat) (rest : List (Digest × List Nat))
    (γ : Digest) :
    depsLookup ((a, ids) :: rest) γ = if a = γ then ids else depsLookup rest γ := rfl

/-- Reduction of `depsAdd` on a cons cell. -/
theorem depsAdd_cons (a : Digest) (ids : List Nat) (rest : List (Digest × List Nat))
    (d : Digest) (i : Nat) :
    depsAdd ((a, ids) :: rest) d i
      = if a = d then (a, ids ++ [i]) :: rest else (a, ids) :: depsAdd rest d i := rfl

/-- Reduction of `depsErase` on a cons cell. -/
theorem depsErase_cons (a : Digest) (ids : List Nat) (rest : List (Digest × List Nat))
    (k : Digest) :
    depsErase ((a, ids) :: rest) k
      = if a = k then depsErase rest k else (a, ids) :: depsErase rest k := by
  by_cases h : a = k <;> simp [depsErase, List.filter_cons, h]

/-- Reduction of `trackerLookup` on a cons cell. -/
theorem trackerLookup_cons (a : Nat) (t : TempRefDep) (rest : List (Nat × TempRefDep))
    (i : Nat) :
    trackerLookup ((a, t) :: rest) i = if a = i then some t else trackerLookup rest i := rfl

/-- Reduction of `trackerInc` on a cons cell. -/
theorem trackerInc_cons (a : Nat) (t : TempRefDep) (rest : List (Nat × TempRefDep))
    (i : Nat) :
    trackerInc ((a, t) :: rest) i
      = (if a = i then (a, ⟨t.digest, t.count + 1⟩) else (a, t)) :: trackerInc rest i := by
  simp only [trackerInc, List.map_cons]

/-- Reduction of `trackerDec` on a cons cell. -/
theorem trackerDec_cons (a : Nat) (t : TempRefDep) (rest : List (Nat × TempRefDep))
    (i : Nat) :
    trackerDec ((a, t) :: rest) i
      = (if a = i then (a, ⟨t.digest, t.count - 1⟩) else (a, t)) :: trackerDec rest i := by
  simp only [trackerDec, List.map_cons]

/-- `depsAdd` on key `d` appends the id to `d`'s waiter list. -/
theorem depsLookup_depsAdd_self (m : List (Digest × List Nat)) (d : Digest) (i : Nat) :
    depsLookup (depsAdd m d i) d = depsLookup m d ++ [i] := by
  induction m with
  | nil => simp [depsAdd, depsLookup]
  | cons e rest ih =>
      obtain ⟨k, ids⟩ := e
      by_cases h : k = d
      · rw [depsAdd_cons, if_pos h, depsLookup_cons, if_pos h, depsLookup_cons, if_pos h]
      · rw [depsAdd_cons, if_neg h, depsLookup_cons, if_neg h, depsLookup_cons, if_neg h, ih]

/-- `depsAdd` on key `d` leaves other keys' waiter lists unchanged. -/
theorem depsLookup_depsAdd_ne (m : List (Digest × List Nat)) (d γ : Digest) (i : Nat)
    (h : γ ≠ d) : depsLookup (depsAdd m d i) γ = depsLookup m γ := by
  induction m with
  | nil =>
      have hdg : ¬ d = γ := fun hh => h hh.symm
      simp [depsAdd, depsLookup, hdg]
  | cons e rest ih =>
      obtain ⟨k, ids⟩ := e
      by_cases hk : k = d
      · have hkg : ¬ k = γ := fun hh => h (hh.symm.trans hk)
        rw [depsAdd_cons, if_pos hk, depsLookup_cons, if_neg hkg, depsLookup_cons, if_neg hkg]
      · rw [depsAdd_cons, if_neg hk, depsLookup_cons, depsLookup_cons, ih]

/-- The keys after `depsAdd` are the old keys, possibly with `d` appended
when it was absent. -/
theorem depsAdd_keys (m : List (Digest × List Nat)) (d : Digest) (i : Nat) :
    (depsAdd m d i).map Prod.fst = m.map Prod.fst ∨
    ((depsAdd m d i).map Prod.fst = m.map Prod.fst ++ [d] ∧ ¬ d ∈ m.map Prod.fst) := by
  induction m with
  | nil => right; simp [depsAdd]
  | cons e rest ih =>
      obtain ⟨k, ids⟩ := e
      by_cases h : k = d
      · left
        rw [depsAdd_cons, if_pos h]
        simp
      · rcases ih with ih | ⟨ih1, ih2⟩
        · left
          rw [depsAdd_cons, if_neg h]
          simp [ih]
        · right
          constructor
          · rw [depsAdd_cons, if_neg h]
            simp [ih1]
          · simp only [List.map_cons, List.mem_cons]
            rintro (hh | hh)
            · exact h hh.symm
            · exact ih2 hh

/-- `depsAdd` keeps the key list duplicate-free. -/
theorem depsAdd_keys_nodup (m : List (Digest × List Nat)) (d : Digest) (i : Nat)
    (h : (m.map Prod.fst).Nodup) : ((depsAdd m d i).map Prod.fst).Nodup := by
  rcases depsAdd_keys m d i with hk | ⟨hk1, hk2⟩
  · rw [hk]; exact h
  · rw [hk1]
    simp only [List.nodup_append, List.nodup_cons, List.not_mem_nil, not_false_iff,
      List.nodup_nil, and_true, true_and]
    refine ⟨h, ?_⟩
    intro a ha hb
    simp only [List.mem_singleton] at hb
    exact hk2 (hb ▸ ha)

/-- The erased key reads back empty. -/
theorem depsLookup_depsErase_self (m : List (Digest × List Nat)) (k : Digest) :
    depsLookup (depsErase m k) k = [] := by
  induction m with
  | nil => simp [depsErase, depsLookup]
  | cons e rest ih =>
      obtain ⟨a, ids⟩ := e
      by_cases hak : a = k
      · rw [depsErase_cons, if_pos hak]
        exact ih
      · rw [depsErase_cons, if_neg hak, depsLookup_cons, if_neg hak]
        exact ih

/-- Erasing a key leaves other keys' waiter lists unchanged. -/
theorem depsLookup_depsErase_ne (m : List (Digest × List Nat)) (k γ : Digest)
    (h : γ ≠ k) : depsLookup (depsErase m k) γ = depsLookup m γ := by
  induction m with
  | nil => simp [depsErase]
  | cons e rest ih =>
      obtain ⟨a, ids⟩ := e
      by_cases hak : a = k
      · have hag : ¬ a = γ := fun hh => h (hh ▸ hak)
        rw [depsErase_cons, if_pos hak, depsLookup_cons, if_neg hag]
        exact ih
      · rw [depsErase_cons, if_neg hak, depsLookup_cons, depsLookup_cons, ih]

/-- Erasing a key keeps the key list duplicate-free. -/
theorem depsErase_keys_nodup (m : List (Digest × List Nat)) (k : Digest)
    (h : (m.map Prod.fst).Nodup) : ((depsErase m k).map Prod.fst).Nodup :=
  List.Nodup.sublist ((List.filter_sublist m).map Prod.fst) h

/-- Erasing a key absent from the map is the identity. -/
theorem depsErase_of_not_mem (m : List (Digest × List Nat)) (k : Digest)
    (h : ¬ k ∈ m.map Prod.fst) : depsErase m k = m := by
  rw [depsErase, List.filter_eq_self]
  intro e he
  have hek : ¬ e.1 = k := fun hek => h (hek ▸ List.mem_map_of_mem Prod.fst he)
  simp [hek]

/-- `trackerInc` bumps the looked-up tracker's count. -/
theorem trackerLookup_inc_self (ts : List (Nat × TempRefDep)) (i : Nat) :
    trackerLookup (trackerInc ts i) i
      = (trackerLookup ts i).map fun t => ⟨t.digest, t.count + 1⟩ := by
  induction ts with
  | nil => rfl
  | cons e rest ih =>
      obtain ⟨a, t⟩ := e
      by_cases h : a = i
      · rw [trackerInc_cons, if_pos h, trackerLookup_cons, if_pos h,
          trackerLookup_cons, if_pos h]
        rfl
      · rw [trackerInc_cons, if_neg h, trackerLookup_cons, if_neg h,
          trackerLookup_cons, if_neg h, ih]

/-- `trackerInc` leaves other trackers unchanged. -/
theorem trackerLookup_inc_ne (ts : List (Nat × TempRefDep)) (i j : Nat) (h : j ≠ i) :
    trackerLookup (trackerInc ts i) j = trackerLookup ts j := by
  induction ts with
  | nil => rfl
  | cons e rest ih =>
      obtain ⟨a, t⟩ := e
      by_cases ha : a = i
      · have haj : ¬ a = j := fun hh => h (hh ▸ ha)
        rw [trackerInc_cons, if_pos ha, trackerLookup_cons, if_neg haj,
          trackerLookup_cons, if_neg haj]
        exact ih
      · rw [trackerInc_cons, if_neg ha, trackerLookup_cons, trackerLookup_cons, ih]

/-- `trackerDec` decrements the looked-up tracker's count. -/
theorem trackerLookup_dec_self (ts : List (Nat × TempRefDep)) (i : Nat) :
    trackerLookup (trackerDec ts i) i
      = (trackerLookup ts i).map fun t => ⟨t.digest, t.count - 1⟩ := by
  induction ts with
  | nil => rfl
  | cons e rest ih =>
      obtain ⟨a, t⟩ := e
      by_cases h : a = i
      · rw [trackerDec_cons, if_pos h, trackerLookup_cons, if_pos h,
          trackerLookup_cons, if_pos h]
        rfl
      · rw [trackerDec_cons, if_neg h, trackerLookup_cons, if_neg h,
          trackerLookup_cons, if_neg h, ih]

/-- `trackerDec` leaves other trackers unchanged. -/
theorem trackerLookup_dec_ne (ts : List (Nat × TempRefDep)) (i j : Nat) (h : j ≠ i) :
    trackerLookup (trackerDec ts i) j = trackerLookup ts j := by
  induction ts with
  | nil => rfl
  | cons e rest ih =>
      obtain ⟨a, t⟩ := e
      by_cases ha : a = i
      · have haj : ¬ a = j := fun hh => h (hh ▸ ha)
        rw [trackerDec_cons, if_pos ha, trackerLookup_cons, if_neg haj,
          trackerLookup_cons, if_neg haj]
        exact ih
      · rw [trackerDec_cons, if_neg ha, trackerLookup_cons, trackerLookup_cons, ih]

/-- Appending a tracker does not shadow existing ids. -/
theorem trackerLookup_append_some (ts : List (Nat × TempRefDep)) (e : Nat × TempRefDep)
    (i : Nat) (t : TempRefDep) (h : trackerLookup ts i = some t) :
    trackerLookup (ts ++ [e]) i = some t := by
  induction ts with
  | nil => simp [trackerLookup] at h
  | cons e' rest ih =>
      obtain ⟨a, u⟩ := e'
      by_cases he : a = i
      · rw [trackerLookup_cons, if_pos he] at h
        rw [List.cons_append, trackerLookup_cons, if_pos he]
        exact h
      · rw [trackerLookup_cons, if_neg he] at h
        rw [List.cons_append, trackerLookup_cons, if_neg he]
        exact ih h

/-- Looking up a fresh id lands on the appended tracker. -/
theorem trackerLookup_append_none (ts : List (Nat × TempRefDep)) (e : Nat × TempRefDep)
    (i : Nat) (h : trackerLookup ts i = none) :
    trackerLookup (ts ++ [e]) i = if e.1 = i then some e.2 else none := by
  obtain ⟨b, u⟩ := e
  induction ts with
  | nil =>
      by_cases hb : b = i
      · simp [trackerLookup, hb]
      · simp [trackerLookup, hb]
  | cons e' rest ih =>
      obtain ⟨a, v⟩ := e'
      by_cases he : a = i
      · rw [trackerLookup_cons, if_pos he] at h
        exact absurd h (by simp)
      · rw [trackerLookup_cons, if_neg he] at h
        rw [List.cons_append, trackerLookup_cons, if_neg he]
        exact ih h

/-- Reduction of `committedEdgeCountM` on a cons cell. -/
theorem CEM_cons (e : Digest × List Nat) (rest : List (Digest × List Nat))
    (C : List Digest) (i : Nat) :
    committedEdgeCountM (e :: rest) C i
      = (if e.1 ∈ C then e.2.count i else 0) + committedEdgeCountM rest C i := by
  simp [committedEdgeCountM]

/-- Reduction of `uncommittedEdgeCountM` on a cons cell. -/
theorem UEM_cons (e : Digest × List Nat) (rest : List (Digest × List Nat))
    (C : List Digest) (i : Nat) :
    uncommittedEdgeCountM (e :: rest) C i
      = (if e.1 ∈ C then 0 else e.2.count i) + uncommittedEdgeCountM rest C i := by
  simp [uncommittedEdgeCountM]

/-- Reduction of `edgeCountM` on a cons cell. -/
theorem ECM_cons (e : Digest × List Nat) (rest : List (Digest × List Nat)) (i : Nat) :
    edgeCountM (e :: rest) i = e.2.count i + edgeCountM rest i := by
  simp [edgeCountM]

/-- Reduction of `pendCount` on a cons cell. -/
theorem pendCount_cons (f : Digest × List Nat) (F : List (Digest × List Nat)) (i : Nat) :
    pendCount (f :: F) i = f.2.count i + pendCount F i := by
  simp [pendCount]

/-- Total edges split into the committed-key and uncommitted-key parts. -/
theorem ECM_split (m : List (Digest × List Nat)) (C : List Digest) (i : Nat) :
    edgeCountM m i = committedEdgeCountM m C i + uncommittedEdgeCountM m C i := by
  induction m with
  | nil => rfl
  | cons e rest ih =>
      rw [ECM_cons, CEM_cons, UEM_cons, ih]
      by_cases h : e.1 ∈ C <;> simp [h] <;> omega

/-- In a duplicate-free map, a member entry is what its key looks up to. -/
theorem mem_keys_lookup (m : List (Digest × List Nat)) (k : Digest) (ids : List Nat)
    (hnd : (m.map Prod.fst).Nodup) (hm : (k, ids) ∈ m) : depsLookup m k = ids := by
  induction m with
  | nil => exact absurd hm (List.not_mem_nil _)
  | cons e rest ih =>
      obtain ⟨a, l⟩ := e
      simp only [List.map_cons, List.nodup_cons] at hnd
      rcases List.mem_cons.mp hm with hh | hh
      · injection hh with h1 h2
        rw [depsLookup_cons, if_pos h1.symm]
        exact h2.symm
      · have hk : k ∈ rest.map Prod.fst := List.mem_map_of_mem Prod.fst hh
        have hak : ¬ a = k := fun he => hnd.1 (he ▸ hk)
        rw [depsLookup_cons, if_neg hak]
        exact ih hnd.2 hh

/-- If no waiter list contains `i`, no edge names `i`. -/
theorem ECM_zero (m : List (Digest × List Nat)) (i : Nat)
    (hnd : (m.map Prod.fst).Nodup) (h : ∀ γ, ¬ i ∈ depsLookup m γ) :
    edgeCountM m i = 0 := by
  rw [edgeCountM]
  refine List.sum_eq_zero ?_
  intro x hx
  rcases List.mem_map.mp hx with ⟨e, he, rfl⟩
  obtain ⟨k, ids⟩ := e
  have : depsLookup m k = ids := mem_keys_lookup m k ids hnd he
  exact List.count_eq_zero.mpr (this ▸ h k)

/-- `depsAdd` for id `i` does not change edge counts of other ids. -/
theorem CEM_depsAdd_ne (m : List (Digest × List Nat)) (C : List Digest) (d : Digest)
    (i j : Nat) (h : j ≠ i) :
    committedEdgeCountM (depsAdd m d i) C j = committedEdgeCountM m C j := by
  have hcnt : ∀ l : List Nat, (l ++ [i]).count j = l.count j := by
    intro l
    simp [List.count_append, List.count_singleton', h]
  induction m with
  | nil =>
      simp only [depsAdd, CEM_cons, committedEdgeCountM, List.map_nil, List.sum_nil]
      by_cases hd : d ∈ C <;> simp [hd, List.count_singleton', h]
  | cons e rest ih =>
      obtain ⟨k, ids⟩ := e
      by_cases hk : k = d
      · rw [depsAdd_cons, if_pos hk, CEM_cons, CEM_cons]
        simp only [hcnt]
      · rw [depsAdd_cons, if_neg hk, CEM_cons, CEM_cons, ih]

/-- `depsAdd` adds exactly one edge for its id. -/
theorem ECM_depsAdd_self (m : List (Digest × List Nat)) (d : Digest) (i : Nat) :
    edgeCountM (depsAdd m d i) i = edgeCountM m i + 1 := by
  induction m with
  | nil => simp [depsAdd, edgeCountM, List.count_singleton]
  | cons e rest ih =>
      obtain ⟨k, ids⟩ := e
      by_cases hk : k = d
      · rw [depsAdd_cons, if_pos hk, ECM_cons, ECM_cons]
        dsimp only
        simp [List.count_append, List.count_singleton]
        omega
      · rw [depsAdd_cons, if_neg hk, ECM_cons, ECM_cons, ih]
        omega

/-- Erasing a key can only lose committed-key edges. -/
theorem CEM_erase_le (m : List (Digest × List Nat)) (C : List Digest) (k : Digest)
    (i : Nat) : committedEdgeCountM (depsErase m k) C i ≤ committedEdgeCountM m C i := by
  induction m with
  | nil => exact Nat.le_refl _
  | cons e rest ih =>
      obtain ⟨a, ids⟩ := e
      by_cases hak : a = k
      · rw [depsErase_cons, if_pos hak, CEM_cons]
        omega
      · rw [depsErase_cons, if_neg hak, CEM_cons, CEM_cons]
        omega

/-- Erasing a key can only lose uncommitted-key edges. -/
theorem UEM_erase_le (m : List (Digest × List Nat)) (C : List Digest) (k : Digest)
    (i : Nat) : uncommittedEdgeCountM (depsErase m k) C i ≤ uncommittedEdgeCountM m C i := by
  induction m with
  | nil => exact Nat.le_refl _
  | cons e rest ih =>
      obtain ⟨a, ids⟩ := e
      by_cases hak : a = k
      · rw [depsErase_cons, if_pos hak, UEM_cons]
        omega
      · rw [depsErase_cons, if_neg hak, UEM_cons, UEM_cons]
        omega

/-- A committed key's own edges plus the rest are at most all committed
edges. -/
theorem CEM_ge_erase (m : List (Digest × List Nat)) (C : List Digest) (k : Digest)
    (i : Nat) (hk : k ∈ C) :
    (depsLookup m k).count i + committedEdgeCountM (depsErase m k) C i
      ≤ committedEdgeCountM m C i := by
  induction m with
  | nil => simp [depsLookup, depsErase, committedEdgeCountM]
  | cons e rest ih =>
      obtain ⟨a, ids⟩ := e
      by_cases hak : a = k
      · subst hak
        rw [depsLookup_cons, if_pos rfl, depsErase_cons, if_pos rfl, CEM_cons, if_pos hk]
        have := CEM_erase_le rest C a i
        dsimp only
        omega
      · rw [depsLookup_cons, if_neg hak, depsErase_cons, if_neg hak, CEM_cons, CEM_cons]
        omega

/-- An uncommitted key's own edges plus the rest are at most all uncommitted
edges. -/
theorem UEM_ge_erase (m : List (Digest × List Nat)) (C : List Digest) (k : Digest)
    (i : Nat) (hk : ¬ k ∈ C) :
    (depsLookup m k).count i + uncommittedEdgeCountM (depsErase m k) C i
      ≤ uncommittedEdgeCountM m C i := by
  induction m with
  | nil => simp [depsLookup, depsErase, uncommittedEdgeCountM]
  | cons e rest ih =>
      obtain ⟨a, ids⟩ := e
      by_cases hak : a = k
      · subst hak
        rw [depsLookup_cons, if_pos rfl, depsErase_cons, if_pos rfl, UEM_cons, if_neg hk]
        have := UEM_erase_le rest C a i
        dsimp only
        omega
      · rw [depsLookup_cons, if_neg hak, depsErase_cons, if_neg hak, UEM_cons, UEM_cons]
        omega

/-- With duplicate-free keys, erasing a committed key removes exactly its
edges from the committed count. -/
theorem CEM_erase_eq (m : List (Digest × List Nat)) (C : List Digest) (k : Digest)
    (i : Nat) (hnd : (m.map Prod.fst).Nodup) (hk : k ∈ C) :
    committedEdgeCountM m C i
      = (depsLookup m k).count i + committedEdgeCountM (depsErase m k) C i := by
  induction m with
  | nil => simp [depsLookup, depsErase, committedEdgeCountM]
  | cons e rest ih =>
      obtain ⟨a, ids⟩ := e
      simp only [List.map_cons, List.nodup_cons] at hnd
      by_cases hak : a = k
      · subst hak
        rw [depsLookup_cons, if_pos rfl, depsErase_cons, if_pos rfl, CEM_cons, if_pos hk]
        rw [depsErase_of_not_mem rest a hnd.1]
      · rw [depsLookup_cons, if_neg hak, depsErase_cons, if_neg hak, CEM_cons, CEM_cons,
          ih hnd.2]
        omega

/-- Adding a fresh digest to `C` does not change committed counts of maps
not keyed by it. -/
theorem CEM_cons_irrel (m : List (Digest × List Nat)) (C : List Digest) (d : Digest)
    (i : Nat) (h : ¬ d ∈ m.map Prod.fst) :
    committedEdgeCountM m (d :: C) i = committedEdgeCountM m C i := by
  induction m with
  | nil => rfl
  | cons e rest ih =>
      obtain ⟨a, ids⟩ := e
      simp only [List.map_cons, List.mem_cons] at h
      push_neg at h
      have had : ¬ a = d := fun hh => h.1 hh.symm
      by_cases hC : a ∈ C
      · have hC2 : (a, ids).1 ∈ d :: C := List.mem_cons_of_mem d hC
        rw [CEM_cons, CEM_cons, ih h.2, if_pos hC2, if_pos hC]
      · have hC2 : ¬ (a, ids).1 ∈ d :: C := by
          simp only [List.mem_cons]
          rintro (hh | hh)
          · exact had hh
          · exact hC hh
        rw [CEM_cons, CEM_cons, ih h.2, if_neg hC2, if_neg hC]

/-- Committing a digest moves exactly its waiter-list edges into the
committed count (duplicate-free keys). -/
theorem CEM_commit (m : List (Digest × List Nat)) (C : List Digest) (d : Digest)
    (i : Nat) (hnd : (m.map Prod.fst).Nodup) (hd : ¬ d ∈ C) :
    committedEdgeCountM m (d :: C) i
      = committedEdgeCountM m C i + (depsLookup m d).count i := by
  induction m with
  | nil => simp [depsLookup, committedEdgeCountM]
  | cons e rest ih =>
      obtain ⟨a, ids⟩ := e
      simp only [List.map_cons, List.nodup_cons] at hnd
      by_cases hak : a = d
      · subst hak
        rw [depsLookup_cons, if_pos rfl, CEM_cons, CEM_cons,
          CEM_cons_irrel rest C a i hnd.1]
        have h1 : (a, ids).1 ∈ a :: C := List.mem_cons_self a C
        rw [if_pos h1, if_neg hd]
        dsimp only
        omega
      · by_cases hC : a ∈ C
        · have hC2 : (a, ids).1 ∈ d :: C := List.mem_cons_of_mem d hC
          rw [depsLookup_cons, if_neg hak, CEM_cons, CEM_cons, ih hnd.2,
            if_pos hC2, if_pos hC]
          omega
        · have hC2 : ¬ (a, ids).1 ∈ d :: C := by
            simp only [List.mem_cons]
            rintro (hh | hh)
            · exact hak hh
            · exact hC hh
          rw [depsLookup_cons, if_neg hak, CEM_cons, CEM_cons, ih hnd.2,
            if_neg hC2, if_neg hC]
          omega

/-- A duplicate-free family of per-key demands, each within its
uncommitted key's waiter list, is dominated by the uncommitted edge count. -/
theorem sum_le_UEM (C : List Digest) (i : Nat) :
    ∀ (S : List Digest) (m : List (Digest × List Nat)) (g : Digest → Nat), S.Nodup →
    (∀ γ ∈ S, ¬ γ ∈ C ∧ g γ ≤ (depsLookup m γ).count i) →
    (S.map g).sum ≤ uncommittedEdgeCountM m C i := by
  intro S
  induction S with
  | nil => intro m g _ _; simp
  | cons γ S ih =>
      intro m g hnd hb
      simp only [List.nodup_cons] at hnd
      obtain ⟨hγC, hγb⟩ := hb γ (List.mem_cons_self γ S)
      have hrest : ∀ γ' ∈ S, ¬ γ' ∈ C ∧ g γ' ≤ (depsLookup (depsErase m γ) γ').count i := by
        intro γ' hγ'
        obtain ⟨h1, h2⟩ := hb γ' (List.mem_cons_of_mem γ hγ')
        have hne : γ' ≠ γ := fun hh => hnd.1 (hh ▸ hγ')
        rw [depsLookup_depsErase_ne m γ γ' hne]
        exact ⟨h1, h2⟩
      have h1 := ih (depsErase m γ) g hnd.2 hrest
      have h2 := UEM_ge_erase m C γ i hγC
      simp only [List.map_cons, List.sum_cons]
      omega

/-- The pending decrements of duplicate-free committed frames are dominated
by the committed edge count. -/
theorem pend_le_CEM (C : List Digest) (i : Nat) :
    ∀ (F : List (Digest × List Nat)) (m : List (Digest × List Nat)),
    (F.map Prod.fst).Nodup →
    (∀ f ∈ F, f.1 ∈ C ∧ ∀ j, f.2.count j ≤ (depsLookup m f.1).count j) →
    pendCount F i ≤ committedEdgeCountM m C i := by
  intro F
  induction F with
  | nil => intro m _ _; simp [pendCount]
  | cons f F ih =>
      intro m hnd hb
      obtain ⟨k, pre⟩ := f
      simp only [List.map_cons, List.nodup_cons] at hnd
      obtain ⟨hkC, hkb⟩ := hb (k, pre) (List.mem_cons_self _ F)
      have hrest : ∀ f ∈ F, f.1 ∈ C ∧ ∀ j, f.2.count j ≤ (depsLookup (depsErase m k) f.1).count j := by
        intro f hf
        obtain ⟨h1, h2⟩ := hb f (List.mem_cons_of_mem _ hf)
        have hne : f.1 ≠ k := fun hh => hnd.1 (hh ▸ List.mem_map_of_mem Prod.fst hf)
        rw [depsLookup_depsErase_ne m k f.1 hne]
        exact ⟨h1, h2⟩
      have h1 := ih (depsErase m k) hnd.2 hrest
      have h2 := CEM_ge_erase m C k i hkC
      have h3 := hkb i
      rw [pendCount_cons]
      dsimp only at h3 ⊢
      omega

/-- Splitting an uncommitted-reference count at a newly committed digest. -/
theorem countP_commit (l : List Digest) (C : List Digest) (d : Digest) (hd : ¬ d ∈ C) :
    l.countP (fun γ => ! decide (γ ∈ C))
      = l.countP (fun γ => ! decide (γ ∈ d :: C)) + l.count d := by
  induction l with
  | nil => simp
  | cons a l ih =>
      simp only [List.countP_cons, List.count_cons]
      by_cases had : a = d
      · subst had
        simp [hd, ih]
        omega
      · have h1 : a ∈ d :: C ↔ a ∈ C := by
          simp only [List.mem_cons]
          constructor
          · rintro (hh | hh)
            · exact absurd hh had
            · exact hh
          · exact Or.inr
        by_cases hC : a ∈ C
        · simp [hC, h1.mpr hC, ih, had]
        · have h2 : ¬ a ∈ d :: C := fun hh => hC (h1.mp hh)
          simp [hC, h2, ih, had]
          omega

/-- Committing `d` removes exactly the `d`-references from the uncommitted
reference count. -/
theorem ucc_commit (w : World) (C : List Digest) (δ d : Digest) (hd : ¬ d ∈ C) :
    uncommittedChildCount w C δ
      = uncommittedChildCount w (d :: C) δ + (childDigests w δ).count d :=
  countP_commit (childDigests w δ) C d hd

/-- A zero uncommitted-reference count means every child is committed. -/
theorem ucc_zero (w : World) (C : List Digest) (δ : Digest)
    (h : uncommittedChildCount w C δ = 0) : ∀ c ∈ w.children δ, c.digest ∈ C := by
  intro c hc
  have hmem : c.digest ∈ childDigests w δ := List.mem_map_of_mem Descriptor.digest hc
  have := List.countP_eq_zero.mp h c.digest hmem
  simp only [Bool.not_eq_true', decide_eq_false_iff_not, not_not] at this
  exact this

/-- `List.count` does not depend on which lawful equality test is used. -/
theorem count_bridge (a : Digest) (l : List Digest) :
    @List.count Digest instBEqOfDecidableEq a l = l.count a := by
  show List.countP (fun x => @BEq.beq Digest instBEqOfDecidableEq x a) l
      = List.countP (fun x => x == a) l
  refine List.countP_congr ?_
  intro x hx
  by_cases h : x = a <;> simp [h, instBEqOfDecidableEq]

/-- The uncommitted-reference count as a sum of per-digest multiplicities
over the deduplicated child list. -/
theorem ucc_eq_sum (w : World) (C : List Digest) (δ : Digest) :
    uncommittedChildCount w C δ
      = (((childDigests w δ).dedup.filter fun γ => ! decide (γ ∈ C)).map
          fun γ => (childDigests w δ).count γ).sum := by
  have h := List.sum_map_count_dedup_filter_eq_countP
      (fun γ => ! decide (γ ∈ C)) (childDigests w δ)
  rw [uncommittedChildCount, ← h]
  congr 1
  refine List.map_congr_left ?_
  intro γ hγ
  exact count_bridge γ (childDigests w δ)

/-- `digestSet.Contains` decides membership. -/
theorem digestSetContains_iff (C : List Digest) (d : Digest) :
    digestSetContains C d = true ↔ d ∈ C := by
  simp only [digestSetContains, List.any_eq_true, decide_eq_true_eq]
  constructor
  · rintro ⟨x, hx, rfl⟩
    exact hx
  · intro h
    exact ⟨d, h, rfl⟩

/-- Frames with strictly decreasing key ranks have duplicate-free keys. -/
theorem pairwise_rank_keys_nodup (rank : Digest → Nat) (F : List (Digest × List Nat))
    (h : List.Pairwise (fun a b => rank b.1 < rank a.1) F) :
    (F.map Prod.fst).Nodup := by
  rw [List.Nodup, List.pairwise_map]
  exact h.imp fun hlt heq => absurd (heq ▸ hlt) (lt_irrefl _)

/-- `commitObject` preserves the fetch invariant when the digest's children
are already committed (or it is already present), grows the committed set
monotonically, and touches nothing else. -/
theorem commitObject_inv (w : World) (F : List (Digest × List Nat)) (s : FetchState)
    (d : Digest) (hInv : FetchInv w F s)
    (hd : d ∈ s.committed ∨ ∀ c ∈ w.children d, c.digest ∈ s.committed) :
    FetchInv w F (commitObject d s)
      ∧ (∀ x ∈ s.committed, x ∈ (commitObject d s).committed)
      ∧ d ∈ (commitObject d s).committed
      ∧ (commitObject d s).deps = s.deps
      ∧ (commitObject d s).trackers = s.trackers
      ∧ (commitObject d s).inFlight = s.inFlight
      ∧ (commitObject d s).waitStack = s.waitStack
      ∧ (commitObject d s).requested = s.requested
      ∧ (commitObject d s).nextId = s.nextId := by
  by_cases hc : digestSetContains s.committed d = true
  · rw [commitObject, if_pos hc]
    exact ⟨hInv, fun x hx => hx, (digestSetContains_iff _ _).mp hc,
      rfl, rfl, rfl, rfl, rfl, rfl⟩
  · have hdc : ¬ d ∈ s.committed := fun hh => hc ((digestSetContains_iff _ _).mpr hh)
    have hch : ∀ c ∈ w.children d, c.digest ∈ s.committed := by
      rcases hd with hd | hd
      · exact absurd hd hdc
      · exact hd
    rw [commitObject, if_neg hc]
    refine ⟨?_, fun x hx => List.mem_cons_of_mem d hx, List.mem_cons_self d _,
      rfl, rfl, rfl, rfl, rfl, rfl⟩
    constructor
    · -- closed
      intro x hx c hc'
      rcases List.mem_cons.mp hx with hh | hh
      · exact List.mem_cons_of_mem d (hch c (hh ▸ hc'))
      · exact List.mem_cons_of_mem d (hInv.closed x hh c hc')
    · -- vbound
      intro i t hlook htd
      have htd' : ¬ t.digest ∈ s.committed := fun hh => htd (List.mem_cons_of_mem d hh)
      have hold := hInv.vbound i t hlook htd'
      have hcem := CEM_commit s.deps s.committed d i hInv.keysNodup hdc
      have hucc := ucc_commit w s.committed t.digest d hdc
      have heb := hInv.edgeBound d i t hlook
      dsimp only at hcem hucc ⊢
      rw [hucc] at hold
      rw [hcem]
      push_cast at hold ⊢
      omega
    · -- edgeBound
      exact hInv.edgeBound
    · -- edgeOwner
      exact hInv.edgeOwner
    · -- keysNodup
      exact hInv.keysNodup
    · -- idsFresh
      exact hInv.idsFresh
    · -- framesOK
      intro f hf
      obtain ⟨h1, h2⟩ := hInv.framesOK f hf
      exact ⟨List.mem_cons_of_mem d h1, h2⟩

/-- The two shapes of a `childStep`: either the held tracker is incremented
and registered under the child (whenever the child is not in the store, and
also when it is queued), or the child is present and only the rollup
progress counters move. -/
theorem childStep_shape (tid : Nat) (c : Descriptor) (s : FetchState) :
    ((¬ c.digest ∈ s.committed ∨ digestSetContains s.requested c.digest = true) ∧
      ∃ st rq p, childStep tid c s
        = { s with trackers := trackerInc s.trackers tid
                   deps := depsAdd s.deps c.digest tid
                   waitStack := st
                   requested := rq
                   progress := p }
        ∧ ∀ d ∈ st, d ∈ s.waitStack ∨ d = c) ∨
    (c.digest ∈ s.committed ∧ ∃ p, childStep tid c s = { s with progress := p }) := by
  by_cases hq : digestSetContains s.requested c.digest = true
  · left
    refine ⟨Or.inr hq, s.waitStack, s.requested, skipProgress c s.progress, ?_, ?_⟩
    · simp [childStep, hq]
    · intro d hd
      exact Or.inl hd
  · by_cases hcm : digestSetContains s.committed c.digest = true
    · right
      refine ⟨(digestSetContains_iff _ _).mp hcm, skipProgress c s.progress, ?_⟩
      simp [childStep, hq, hcm]
    · left
      have hcm' : ¬ c.digest ∈ s.committed :=
        fun hh => hcm ((digestSetContains_iff _ _).mpr hh)
      refine ⟨Or.inl hcm', c :: s.waitStack, c.digest :: s.requested, s.progress, ?_, ?_⟩
      · simp [childStep, hq, hcm]
      · intro d hd
        rcases List.mem_cons.mp hd with hh | hh
        · exact Or.inr hh
        · exact Or.inl hh

/-- Bookkeeping of the dependency-partition loop for the freshly held
tracker `tid`: the tracker's digest is stable and its count grows exactly
with the registered edges; other trackers, the committed set, and other
ids' edges are untouched; the edges registered for `tid` under any child
digest are bounded by that digest's multiplicity among the children, with
equality forced for children outside the store; new wait-stack entries come
from the children. -/
theorem processDeps_spec (tid : Nat) :
    ∀ (L : List Descriptor) (s : FetchState) (δ : Digest) (k : Int),
    trackerLookup s.trackers tid = some ⟨δ, k⟩ →
    ∃ k' : Int,
      trackerLookup (processDeps tid L s).trackers tid = some ⟨δ, k'⟩ ∧
      (∀ j, j ≠ tid →
        trackerLookup (processDeps tid L s).trackers j = trackerLookup s.trackers j) ∧
      (processDeps tid L s).committed = s.committed ∧
      (processDeps tid L s).inFlight = s.inFlight ∧
      (processDeps tid L s).nextId = s.nextId ∧
      (∀ γ j, j ≠ tid →
        (depsLookup (processDeps tid L s).deps γ).count j = (depsLookup s.deps γ).count j) ∧
      (∀ C j, j ≠ tid →
        committedEdgeCountM (processDeps tid L s).deps C j = committedEdgeCountM s.deps C j) ∧
      (∀ γ, (depsLookup (processDeps tid L s).deps γ).count tid
          ≤ (depsLookup s.deps γ).count tid + (L.map Descriptor.digest).count γ) ∧
      (∀ γ, ¬ γ ∈ s.committed →
          (depsLookup s.deps γ).count tid + (L.map Descriptor.digest).count γ
            ≤ (depsLookup (processDeps tid L s).deps γ).count tid) ∧
      (k' + (edgeCountM s.deps tid : Int)
          = k + (edgeCountM (processDeps tid L s).deps tid : Int)) ∧
      ((s.deps.map Prod.fst).Nodup → ((processDeps tid L s).deps.map Prod.fst).Nodup) ∧
      (∀ γ j, j ∈ depsLookup (processDeps tid L s).deps γ →
          j ∈ depsLookup s.deps γ ∨ (j = tid ∧ γ ∈ L.map Descriptor.digest)) ∧
      (∀ d, d ∈ (processDeps tid L s).waitStack → d ∈ s.waitStack ∨ d ∈ L) := by
  intro L
  induction L with
  | nil =>
      intro s δ k ht
      refine ⟨k, ht, fun j _ => rfl, rfl, rfl, rfl, fun γ j _ => rfl, fun C j _ => rfl,
        ?_, ?_, rfl, fun h => h, ?_, ?_⟩
      · intro γ
        exact Nat.le_refl _
      · intro γ _
        exact Nat.le_refl _
      · intro γ j hj
        exact Or.inl hj
      · intro d hd
        exact Or.inl hd
  | cons c L ih =>
      intro s δ k ht
      have hstep : processDeps tid (c :: L) s = processDeps tid L (childStep tid c s) := rfl
      rcases childStep_shape tid c s with ⟨hreg, st, rq, p, hcs, hst⟩ | ⟨hcm, p, hcs⟩
      · -- registration shape
        set s₁ : FetchState :=
          { s with trackers := trackerInc s.trackers tid
                   deps := depsAdd s.deps c.digest tid
                   waitStack := st
                   requested := rq
                   progress := p } with hs₁
        have ht₁ : trackerLookup s₁.trackers tid = some ⟨δ, k + 1⟩ := by
          show trackerLookup (trackerInc s.trackers tid) tid = some ⟨δ, k + 1⟩
          rw [trackerLookup_inc_self, ht]
          rfl
        obtain ⟨k', hT, hO, hC, hIF, hN, hD, hCE, hE, hF, hG, hND, hI, hJ⟩ :=
          ih s₁ δ (k + 1) ht₁
        rw [hstep, hcs]
        have hlk : ∀ γ, depsLookup s₁.deps γ
            = if γ = c.digest then depsLookup s.deps γ ++ [tid] else depsLookup s.deps γ := by
          intro γ
          by_cases hγ : γ = c.digest
          · rw [if_pos hγ, hγ]
            exact depsLookup_depsAdd_self s.deps c.digest tid
          · rw [if_neg hγ]
            exact depsLookup_depsAdd_ne s.deps c.digest γ tid hγ
        refine ⟨k', hT, ?_, hC, hIF, hN, ?_, ?_, ?_, ?_, ?_, ?_, ?_, ?_⟩
        · intro j hj
          rw [hO j hj]
          show trackerLookup (trackerInc s.trackers tid) j = trackerLookup s.trackers j
          exact trackerLookup_inc_ne s.trackers tid j hj
        · intro γ j hj
          rw [hD γ j hj, hlk γ]
          by_cases hγ : γ = c.digest
          · rw [if_pos hγ]
            simp [List.count_append, List.count_singleton', hj]
          · rw [if_neg hγ]
        · intro C j hj
          rw [hCE C j hj]
          show committedEdgeCountM (depsAdd s.deps c.digest tid) C j = _
          exact CEM_depsAdd_ne s.deps C c.digest tid j hj
        · intro γ
          have h1 := hE γ
          rw [hlk γ] at h1
          by_cases hγ : γ = c.digest
          · rw [if_pos hγ] at h1
            have h3 : (depsLookup s.deps γ ++ [tid]).count tid
                = (depsLookup s.deps γ).count tid + 1 := by simp
            rw [h3] at h1
            have h2 : ((c :: L).map Descriptor.digest).count γ
                = (L.map Descriptor.digest).count γ + 1 := by
              simp [List.count_cons, hγ]
            omega
          · rw [if_neg hγ] at h1
            have hcg : ¬ c.digest = γ := fun hh => hγ hh.symm
            have h2 : ((c :: L).map Descriptor.digest).count γ
                = (L.map Descriptor.digest).count γ := by
              simp [List.count_cons, hcg]
            omega
        · intro γ hγc
          have hγc₁ : ¬ γ ∈ s₁.committed := hγc
          have h1 := hF γ hγc₁
          rw [hlk γ] at h1
          by_cases hγ : γ = c.digest
          · rw [if_pos hγ] at h1
            have h3 : (depsLookup s.deps γ ++ [tid]).count tid
                = (depsLookup s.deps γ).count tid + 1 := by simp
            rw [h3] at h1
            have h2 : ((c :: L).map Descriptor.digest).count γ
                = (L.map Descriptor.digest).count γ + 1 := by
              simp [List.count_cons, hγ]
            omega
          · rw [if_neg hγ] at h1
            have hcg : ¬ c.digest = γ := fun hh => hγ hh.symm
            have h2 : ((c :: L).map Descriptor.digest).count γ
                = (L.map Descriptor.digest).count γ := by
              simp [List.count_cons, hcg]
            omega
        · have hec : edgeCountM s₁.deps tid = edgeCountM s.deps tid + 1 :=
            ECM_depsAdd_self s.deps c.digest tid
          rw [hec] at hG
          push_cast at hG ⊢
          omega
        · intro hnd
          exact hND (depsAdd_keys_nodup s.deps c.digest tid hnd)
        · intro γ j hj
          rcases hI γ j hj with hj1 | ⟨hj1, hj2⟩
          · rw [hlk γ] at hj1
            by_cases hγ : γ = c.digest
            · rw [if_pos hγ] at hj1
              rcases List.mem_append.mp hj1 with hj2 | hj2
              · exact Or.inl hj2
              · right
                refine ⟨List.mem_singleton.mp hj2, ?_⟩
                rw [hγ]
                exact List.mem_cons_self _ _
            · rw [if_neg hγ] at hj1
              exact Or.inl hj1
          · right
            exact ⟨hj1, List.mem_cons_of_mem _ hj2⟩
        · intro d hd
          rcases hJ d hd with hd1 | hd1
          · rcases hst d hd1 with hd2 | hd2
            · exact Or.inl hd2
            · exact Or.inr (hd2 ▸ List.mem_cons_self c L)
          · exact Or.inr (List.mem_cons_of_mem c hd1)
      · -- skip shape
        set s₁ : FetchState := { s with progress := p } with hs₁
        have ht₁ : trackerLookup s₁.trackers tid = some ⟨δ, k⟩ := ht
        obtain ⟨k', hT, hO, hC, hIF, hN, hD, hCE, hE, hF, hG, hND, hI, hJ⟩ :=
          ih s₁ δ k ht₁
        rw [hstep, hcs]
        refine ⟨k', hT, hO, hC, hIF, hN, hD, hCE, ?_, ?_, hG, hND, ?_, ?_⟩
        · intro γ
          have h1 := hE γ
          have hdeq : s₁.deps = s.deps := by rw [hs₁]
          rw [hdeq] at h1
          have h2 : ((c :: L).map Descriptor.digest).count γ
              ≥ (L.map Descriptor.digest).count γ := by
            simp only [List.map_cons, List.count_cons]
            omega
          omega
        · intro γ hγc
          have hne : ¬ c.digest = γ := fun hh => hγc (hh ▸ hcm)
          have h2 : ((c :: L).map Descriptor.digest).count γ
              = (L.map Descriptor.digest).count γ := by
            simp [List.count_cons, hne]
          rw [h2]
          exact hF γ hγc
        · intro γ j hj
          rcases hI γ j hj with hj1 | ⟨hj1, hj2⟩
          · exact Or.inl hj1
          · exact Or.inr ⟨hj1, List.mem_cons_of_mem _ hj2⟩
        · intro d hd
          rcases hJ d hd with hd1 | hd1
          · exact Or.inl hd1
          · exact Or.inr (List.mem_cons_of_mem c hd1)

/-- The frame-rank ordering only depends on the keys. -/
theorem pairwise_frames_value (rank : Digest → Nat) (k₀ : Digest) (X Y : List Nat)
    (F₀ : List (Digest × List Nat))
    (h : List.Pairwise (fun a b => rank b.1 < rank a.1) ((k₀, X) :: F₀)) :
    List.Pairwise (fun a b => rank b.1 < rank a.1) ((k₀, Y) :: F₀) := by
  rw [List.pairwise_cons] at h ⊢
  exact ⟨h.1, h.2⟩

/-- Decrementing a waiter of the top frame's key preserves the invariant
once the waiter is recorded in the frame's processed prefix. -/
theorem trackerDec_inv (w : World) (k₀ : Digest) (pre : List Nat) (i₀ : Nat)
    (F₀ : List (Digest × List Nat)) (s : FetchState)
    (hInv : FetchInv w ((k₀, pre) :: F₀) s)
    (hcnt : ∀ i, ((pre ++ [i₀]).count i) ≤ (depsLookup s.deps k₀).count i) :
    FetchInv w ((k₀, pre ++ [i₀]) :: F₀)
      { s with trackers := trackerDec s.trackers i₀ } := by
  refine ⟨hInv.closed, ?_, ?_, ?_, hInv.keysNodup, ?_, ?_⟩
  · -- vbound
    intro i t hlook htd
    rw [pendCount_cons]
    dsimp only at hlook htd ⊢
    by_cases hi : i = i₀
    · subst hi
      rw [trackerLookup_dec_self] at hlook
      cases hlu : trackerLookup s.trackers i with
      | none => rw [hlu] at hlook; exact absurd hlook (by simp)
      | some t₀ =>
          rw [hlu] at hlook
          simp only [Option.map_some'] at hlook
          obtain rfl := Option.some.inj hlook
          dsimp only at htd ⊢
          have hvb := hInv.vbound i t₀ hlu htd
          rw [pendCount_cons] at hvb
          have hc1 : ((pre ++ [i]).count i) = pre.count i + 1 := by
            simp [List.count_append]
          rw [hc1]
          dsimp only at hvb
          push_cast at hvb ⊢
          omega
    · rw [trackerLookup_dec_ne s.trackers i₀ i hi] at hlook
      have hvb := hInv.vbound i t hlook htd
      rw [pendCount_cons] at hvb
      have hc1 : ((pre ++ [i₀]).count i) = pre.count i := by
        simp [List.count_append, List.count_singleton', hi]
      rw [hc1]
      dsimp only at hvb ⊢
      omega
  · -- edgeBound
    intro γ i t hlook
    dsimp only at hlook ⊢
    by_cases hi : i = i₀
    · subst hi
      rw [trackerLookup_dec_self] at hlook
      cases hlu : trackerLookup s.trackers i with
      | none => rw [hlu] at hlook; exact absurd hlook (by simp)
      | some t₀ =>
          rw [hlu] at hlook
          simp only [Option.map_some'] at hlook
          obtain rfl := Option.some.inj hlook
          exact hInv.edgeBound γ i t₀ hlu
    · rw [trackerLookup_dec_ne s.trackers i₀ i hi] at hlook
      exact hInv.edgeBound γ i t hlook
  · -- edgeOwner
    intro γ i hi'
    dsimp only at hi' ⊢
    obtain ⟨t, hlu, hmem⟩ := hInv.edgeOwner γ i hi'
    by_cases hi : i = i₀
    · subst hi
      refine ⟨⟨t.digest, t.count - 1⟩, ?_, hmem⟩
      rw [trackerLookup_dec_self, hlu]
      rfl
    · refine ⟨t, ?_, hmem⟩
      rw [trackerLookup_dec_ne s.trackers i₀ i hi]
      exact hlu
  · -- idsFresh
    intro i t hlook
    dsimp only at hlook ⊢
    by_cases hi : i = i₀
    · subst hi
      rw [trackerLookup_dec_self] at hlook
      cases hlu : trackerLookup s.trackers i with
      | none => rw [hlu] at hlook; exact absurd hlook (by simp)
      | some t₀ => exact hInv.idsFresh i t₀ hlu
    · rw [trackerLookup_dec_ne s.trackers i₀ i hi] at hlook
      exact hInv.idsFresh i t hlook
  · -- framesOK
    intro f hf
    rcases List.mem_cons.mp hf with hh | hh
    · subst hh
      refine ⟨?_, ?_⟩
      · exact (hInv.framesOK (k₀, pre) (List.mem_cons_self _ _)).1
      · intro j
        exact hcnt j
    · exact hInv.framesOK f (List.mem_cons_of_mem _ hh)

/-- The waiter-iteration of `dependencySet.Remove` preserves the invariant:
processing the remaining waiters `ids` of the top frame's key re-establishes
the invariant with those waiters recorded in the frame, commits only
reference-closed digests, and touches no waiter list ranked at or below the
frame key. -/
theorem removeGo_post (w : World) (rank : Digest → Nat)
    (hrank : ∀ δ c, c ∈ w.children δ → rank c.digest < rank δ) (fuel : Nat)
    (hdep : ∀ (key : Digest) (s : FetchState) (F : List (Digest × List Nat)),
      key ∈ s.committed →
      List.Pairwise (fun a b => rank b.1 < rank a.1) F →
      (∀ f ∈ F, rank f.1 < rank key) →
      FetchInv w F s →
      RemovePost w rank F (rank key) s (removeDep w fuel key s)) :
    ∀ (ids : List Nat) (s : FetchState) (k₀ : Digest) (pre : List Nat)
      (F₀ : List (Digest × List Nat)),
    k₀ ∈ s.committed →
    List.Pairwise (fun a b => rank b.1 < rank a.1) ((k₀, pre) :: F₀) →
    (∀ i, ((pre ++ ids).count i) ≤ (depsLookup s.deps k₀).count i) →
    FetchInv w ((k₀, pre) :: F₀) s →
    RemovePost w rank ((k₀, pre ++ ids) :: F₀) (rank k₀ + 1) s (removeGo w fuel ids s) := by
  intro ids
  induction ids with
  | nil =>
      intro s k₀ pre F₀ hkey hPW hsplit hInv
      rw [removeGo, List.append_nil]
      exact ⟨hInv, fun x hx => hx, fun γ _ => rfl, rfl, rfl, rfl, rfl⟩
  | cons i₀ rest ih =>
      intro s k₀ pre F₀ hkey hPW hsplit hInv
      have hfr : (pre ++ [i₀]) ++ rest = pre ++ i₀ :: rest := by
        rw [List.append_assoc]
        rfl
      -- i₀ waits on k₀, so it has a live tracker whose digest references k₀
      have hcnt1 : 0 < (depsLookup s.deps k₀).count i₀ := by
        have h := hsplit i₀
        have h2 : 0 < (pre ++ i₀ :: rest).count i₀ := by
          simp [List.count_append, List.count_cons]
        omega
      have hi₀mem : i₀ ∈ depsLookup s.deps k₀ := List.count_pos_iff.mp hcnt1
      obtain ⟨t₀, ht₀, hk₀mem⟩ := hInv.edgeOwner k₀ i₀ hi₀mem
      have hcntpre : ∀ i, ((pre ++ [i₀]).count i) ≤ (depsLookup s.deps k₀).count i := by
        intro i
        have h := hsplit i
        simp only [List.count_append, List.count_cons, List.count_nil] at h ⊢
        omega
      have hInv1 : FetchInv w ((k₀, pre ++ [i₀]) :: F₀)
          { s with trackers := trackerDec s.trackers i₀ } :=
        trackerDec_inv w k₀ pre i₀ F₀ s hInv hcntpre
      have hPW1 : List.Pairwise (fun a b => rank b.1 < rank a.1) ((k₀, pre ++ [i₀]) :: F₀) :=
        pairwise_frames_value rank k₀ pre (pre ++ [i₀]) F₀ hPW
      have hlook1 : trackerLookup ({ s with trackers := trackerDec s.trackers i₀ }
          : FetchState).trackers i₀ = some ⟨t₀.digest, t₀.count - 1⟩ := by
        show trackerLookup (trackerDec s.trackers i₀) i₀ = _
        rw [trackerLookup_dec_self, ht₀]
        rfl
      rw [removeGo, hlook1]
      dsimp only
      by_cases hz : t₀.count - 1 = 0
      · rw [if_pos hz]
        set s1 : FetchState := { s with trackers := trackerDec s.trackers i₀ } with hs1
        -- commit safety for the zeroed tracker's digest
        have hd : t₀.digest ∈ s1.committed ∨
            ∀ c ∈ w.children t₀.digest, c.digest ∈ s1.committed := by
          by_cases hdc : t₀.digest ∈ s1.committed
          · exact Or.inl hdc
          · right
            have hlook1' : trackerLookup s1.trackers i₀
                = some ⟨t₀.digest, t₀.count - 1⟩ := hlook1
            have hvb := hInv1.vbound i₀ ⟨t₀.digest, t₀.count - 1⟩ hlook1' hdc
            have hpend := pend_le_CEM s.committed i₀ ((k₀, pre ++ [i₀]) :: F₀) s.deps
              (pairwise_rank_keys_nodup rank _ hPW1)
              (fun f hf => hInv1.framesOK f hf)
            have hu : uncommittedChildCount w s.committed t₀.digest = 0 := by
              dsimp only at hvb
              rw [hz] at hvb
              omega
            exact ucc_zero w s.committed t₀.digest hu
        obtain ⟨hInv2, hmono2, hd2, hdeps2, htr2, hif2, hws2, hrq2, hnid2⟩ :=
          commitObject_inv w ((k₀, pre ++ [i₀]) :: F₀) s1 t₀.digest hInv1 hd
        set s2 : FetchState := commitObject t₀.digest s1 with hs2
        have hrk2 : rank k₀ < rank t₀.digest := by
          rcases List.mem_map.mp hk₀mem with ⟨c, hc, hcd⟩
          have h := hrank t₀.digest c hc
          rw [hcd] at h
          exact h
        have hrkF : ∀ f ∈ (k₀, pre ++ [i₀]) :: F₀, rank f.1 < rank t₀.digest := by
          intro f hf
          rcases List.mem_cons.mp hf with hh | hh
          · rw [hh]
            exact hrk2
          · exact lt_trans ((List.pairwise_cons.mp hPW1).1 f hh) hrk2
        obtain ⟨hInv3, hmono3, hlk3, hif3, hws3, hrq3, hnid3⟩ :=
          hdep t₀.digest s2 ((k₀, pre ++ [i₀]) :: F₀) hd2 hPW1 hrkF hInv2
        set s3 : FetchState := removeDep w fuel t₀.digest s2 with hs3
        have hkey3 : k₀ ∈ s3.committed := hmono3 k₀ (hmono2 k₀ hkey)
        have hlkk₀ : depsLookup s3.deps k₀ = depsLookup s.deps k₀ := by
          rw [hlk3 k₀ hrk2, hdeps2]
        have hsplit3 : ∀ i, (((pre ++ [i₀]) ++ rest).count i)
            ≤ (depsLookup s3.deps k₀).count i := by
          intro i
          rw [hlkk₀, hfr]
          exact hsplit i
        obtain ⟨hInv4, hmono4, hlk4, hif4, hws4, hrq4, hnid4⟩ :=
          ih s3 k₀ (pre ++ [i₀]) F₀ hkey3 hPW1 hsplit3 hInv3
        rw [hfr] at hInv4
        refine ⟨hInv4, ?_, ?_, ?_, ?_, ?_, ?_⟩
        · intro x hx
          exact hmono4 x (hmono3 x (hmono2 x hx))
        · intro γ hγ
          have hγd : rank γ < rank t₀.digest :=
            lt_of_le_of_lt (Nat.lt_succ_iff.mp hγ) hrk2
          rw [hlk4 γ hγ, hlk3 γ hγd, hdeps2]
        · rw [hif4, hif3, hif2]
        · rw [hws4, hws3, hws2]
        · rw [hrq4, hrq3, hrq2]
        · rw [hnid4, hnid3, hnid2]
      · rw [if_neg hz]
        set s1 : FetchState := { s with trackers := trackerDec s.trackers i₀ } with hs1
        have hkey1 : k₀ ∈ s1.committed := hkey
        have hsplit1 : ∀ i, (((pre ++ [i₀]) ++ rest).count i)
            ≤ (depsLookup s1.deps k₀).count i := by
          intro i
          rw [hfr]
          exact hsplit i
        obtain ⟨hInv4, hmono4, hlk4, hif4, hws4, hrq4, hnid4⟩ :=
          ih s1 k₀ (pre ++ [i₀]) F₀ hkey1 hPW1 hsplit1 hInv1
        rw [hfr] at hInv4
        refine ⟨hInv4, ?_, ?_, ?_, ?_, ?_, ?_⟩
        · intro x hx
          exact hmono4 x hx
        · intro γ hγ
          rw [hlk4 γ hγ]
        · rw [hif4]
        · rw [hws4]
        · rw [hrq4]
        · rw [hnid4]

/-- `dependencySet.Remove` preserves the fetch invariant: removing a
committed key decrements its waiters, commits (and cascades) exactly the
trackers whose counts reach zero — each only once all its references are
committed — and erases the key's waiter list, leaving lower-ranked waiter
lists intact. -/
theorem removeDep_post (w : World) (rank : Digest → Nat)
    (hrank : ∀ δ c, c ∈ w.children δ → rank c.digest < rank δ) :
    ∀ (fuel : Nat) (key : Digest) (s : FetchState) (F : List (Digest × List Nat)),
    key ∈ s.committed →
    List.Pairwise (fun a b => rank b.1 < rank a.1) F →
    (∀ f ∈ F, rank f.1 < rank key) →
    FetchInv w F s →
    RemovePost w rank F (rank key) s (removeDep w fuel key s) := by
  intro fuel
  induction fuel with
  | zero =>
      intro key s F hkey hPW hrk hInv
      rw [removeDep]
      exact ⟨hInv, fun x hx => hx, fun γ _ => rfl, rfl, rfl, rfl, rfl⟩
  | succ fuel ih =>
      intro key s F hkey hPW hrk hInv
      rw [removeDep]
      have hPW' : List.Pairwise (fun a b => rank b.1 < rank a.1)
          ((key, ([] : List Nat)) :: F) :=
        List.pairwise_cons.mpr ⟨fun f hf => hrk f hf, hPW⟩
      have hInv' : FetchInv w ((key, ([] : List Nat)) :: F) s := by
        refine ⟨hInv.closed, ?_, hInv.edgeBound, hInv.edgeOwner, hInv.keysNodup,
          hInv.idsFresh, ?_⟩
        · intro i t hlook htd
          have h := hInv.vbound i t hlook htd
          rw [pendCount_cons]
          simp only [List.count_nil]
          push_cast at h ⊢
          omega
        · intro f hf
          rcases List.mem_cons.mp hf with hh | hh
          · subst hh
            refine ⟨hkey, ?_⟩
            intro j
            simp
          · exact hInv.framesOK f hh
      have hsplit : ∀ i, ((([] : List Nat) ++ depsLookup s.deps key).count i)
          ≤ (depsLookup s.deps key).count i := by
        intro i
        rw [List.nil_append]
      obtain ⟨hInv1, hmono1, hlk1, hif1, hws1, hrq1, hnid1⟩ :=
        removeGo_post w rank hrank fuel ih (depsLookup s.deps key) s key [] F
          hkey hPW' hsplit hInv'
      set s1 : FetchState := removeGo w fuel (depsLookup s.deps key) s with hs1
      have hkey1 : key ∈ s1.committed := hmono1 key hkey
      have hlkkey : depsLookup s1.deps key = depsLookup s.deps key :=
        hlk1 key (Nat.lt_succ_self _)
      refine ⟨⟨hInv1.closed, ?_, ?_, ?_, ?_, hInv1.idsFresh, ?_⟩, ?_, ?_, ?_, ?_, ?_, ?_⟩
      · -- vbound after the deletion of the key
        intro i t hlook htd
        have h := hInv1.vbound i t hlook htd
        rw [pendCount_cons] at h
        have hC : committedEdgeCountM s1.deps s1.committed i
            = (depsLookup s1.deps key).count i
              + committedEdgeCountM (depsErase s1.deps key) s1.committed i :=
          CEM_erase_eq s1.deps s1.committed key i hInv1.keysNodup hkey1
        rw [hC, hlkkey] at h
        simp only [List.nil_append] at h
        dsimp only at h ⊢
        push_cast at h ⊢
        omega
      · -- edgeBound
        intro γ i t hlook
        by_cases hγ : γ = key
        · subst hγ
          show (depsLookup (depsErase s1.deps γ) γ).count i ≤ _
          rw [depsLookup_depsErase_self]
          simp
        · show (depsLookup (depsErase s1.deps key) γ).count i ≤ _
          rw [depsLookup_depsErase_ne s1.deps key γ hγ]
          exact hInv1.edgeBound γ i t hlook
      · -- edgeOwner
        intro γ i hi
        by_cases hγ : γ = key
        · subst hγ
          have : i ∈ depsLookup (depsErase s1.deps γ) γ := hi
          rw [depsLookup_depsErase_self] at this
          exact absurd this (List.not_mem_nil i)
        · have : i ∈ depsLookup (depsErase s1.deps key) γ := hi
          rw [depsLookup_depsErase_ne s1.deps key γ hγ] at this
          exact hInv1.edgeOwner γ i this
      · -- keysNodup
        exact depsErase_keys_nodup s1.deps key hInv1.keysNodup
      · -- framesOK
        intro f hf
        obtain ⟨h1, h2⟩ := hInv1.framesOK f (List.mem_cons_of_mem _ hf)
        refine ⟨h1, ?_⟩
        intro j
        have hfk : f.1 ≠ key := by
          intro hh
          exact absurd (hh ▸ hrk f hf) (lt_irrefl (rank key))
        show f.2.count j ≤ (depsLookup (depsErase s1.deps key) f.1).count j
        rw [depsLookup_depsErase_ne s1.deps key f.1 hfk]
        exact h2 j
      · -- committed monotone
        intro x hx
        exact hmono1 x hx
      · -- lower-ranked waiter lists preserved
        intro γ hγ
        have hγk : γ ≠ key := by
          intro hh
          exact absurd (hh ▸ hγ) (lt_irrefl (rank key))
        show depsLookup (depsErase s1.deps key) γ = depsLookup s.deps γ
        rw [depsLookup_depsErase_ne s1.deps key γ hγk]
        exact hlk1 γ (Nat.lt_succ_of_lt hγ)
      · exact hif1
      · exact hws1
      · exact hrq1
      · exact hnid1

/-- The refill loop only redistributes descriptors between the queue and
the stack. -/
theorem refillGo_mem : ∀ (st q : List Descriptor) (d : Descriptor),
    (d ∈ (refillGo q st).1 ∨ d ∈ (refillGo q st).2) → d ∈ q ∨ d ∈ st := by
  intro st
  induction st with
  | nil =>
      intro q d h
      rw [refillGo] at h
      rcases h with h | h
      · exact Or.inl h
      · exact absurd h (List.not_mem_nil d)
  | cons e rest ih =>
      intro q d h
      rw [refillGo] at h
      by_cases hq : 256 ≤ q.length
      · rw [if_pos hq] at h
        exact h
      · rw [if_neg hq] at h
        rcases ih (q ++ [e]) d h with h1 | h1
        · rcases List.mem_append.mp h1 with h2 | h2
          · exact Or.inl h2
          · rcases List.mem_singleton.mp h2 with rfl
            exact Or.inr (List.mem_cons_self _ _)
        · exact Or.inr (List.mem_cons_of_mem _ h1)

/-- Receiving one object preserves the invariant: after allocating the fresh
tracker, partitioning the children, and committing-and-cascading exactly
when no dependency is missing, the committed set is still closed under
reference, it has grown monotonically, and the new wait-stack entries are
children of the received object. -/
theorem receive_inv (w : World) (rank : Digest → Nat)
    (hrank : ∀ δ c, c ∈ w.children δ → rank c.digest < rank δ)
    (desc : Descriptor) (s0 s1 : FetchState)
    (hInv : FetchInv w [] s0)
    (hcom : s1.committed = s0.committed)
    (hdeps : s1.deps = s0.deps)
    (htrk : s1.trackers = s0.trackers ++ [(s0.nextId, ⟨desc.digest, 0⟩)])
    (hnid : s1.nextId = s0.nextId + 1)
    (S3 : FetchState)
    (hS3 : S3 = match trackerLookup
        (processDeps s0.nextId (w.children desc.digest) s1).trackers s0.nextId with
      | none => processDeps s0.nextId (w.children desc.digest) s1
      | some t =>
          if t.count = 0 then
            removeDep w (removeFuel (processDeps s0.nextId (w.children desc.digest) s1))
              desc.digest
              (commitObject desc.digest (processDeps s0.nextId (w.children desc.digest) s1))
          else processDeps s0.nextId (w.children desc.digest) s1) :
    FetchInv w [] S3 ∧ (∀ x ∈ s0.committed, x ∈ S3.committed) ∧
      S3.inFlight = s1.inFlight ∧
      (∀ d ∈ S3.waitStack, d ∈ s1.waitStack ∨ d ∈ w.children desc.digest) := by
  subst hS3
  have htid0 : trackerLookup s0.trackers s0.nextId = none := by
    cases hl : trackerLookup s0.trackers s0.nextId with
    | none => rfl
    | some t => exact absurd (hInv.idsFresh s0.nextId t hl) (lt_irrefl _)
  have hlooktid : trackerLookup s1.trackers s0.nextId = some ⟨desc.digest, 0⟩ := by
    rw [htrk, trackerLookup_append_none s0.trackers _ _ htid0]
    simp
  have hsplittr : ∀ j t, trackerLookup s1.trackers j = some t →
      (j = s0.nextId ∧ t = ⟨desc.digest, 0⟩) ∨
      (j ≠ s0.nextId ∧ trackerLookup s0.trackers j = some t) := by
    intro j t hj
    cases hl : trackerLookup s0.trackers j with
    | some t' =>
        have happ := trackerLookup_append_some s0.trackers (s0.nextId, ⟨desc.digest, 0⟩) j t' hl
        rw [htrk, happ] at hj
        have hjt : j ≠ s0.nextId :=
          fun hh => absurd (hh ▸ hInv.idsFresh j t' hl) (lt_irrefl _)
        exact Or.inr ⟨hjt, hj⟩
    | none =>
        rw [htrk, trackerLookup_append_none s0.trackers _ _ hl] at hj
        by_cases hje : s0.nextId = j
        · rw [if_pos hje] at hj
          exact Or.inl ⟨hje.symm, (Option.some.inj hj).symm⟩
        · rw [if_neg hje] at hj
          exact absurd hj (by simp)
  have htidedge : ∀ γ, ¬ s0.nextId ∈ depsLookup s0.deps γ := by
    intro γ hmem
    obtain ⟨t, hl, _⟩ := hInv.edgeOwner γ s0.nextId hmem
    exact absurd (hInv.idsFresh s0.nextId t hl) (lt_irrefl _)
  have htidcnt : ∀ γ, (depsLookup s0.deps γ).count s0.nextId = 0 :=
    fun γ => List.count_eq_zero.mpr (htidedge γ)
  have hec0 : edgeCountM s0.deps s0.nextId = 0 :=
    ECM_zero s0.deps s0.nextId hInv.keysNodup htidedge
  obtain ⟨k', hT, hO, hC, hIF, hN, hD, hCE, hE, hF, hG, hND, hI, hJ⟩ :=
    processDeps_spec s0.nextId (w.children desc.digest) s1 desc.digest 0 hlooktid
  have hcd : (w.children desc.digest).map Descriptor.digest = childDigests w desc.digest := rfl
  rw [hcd] at hE hF hI
  rw [hdeps] at hD hCE hE hF hG hND hI
  set s2 : FetchState := processDeps s0.nextId (w.children desc.digest) s1 with hs2
  have hp0 : ∀ i, pendCount ([] : List (Digest × List Nat)) i = 0 := fun i => rfl
  have hk'ec : k' = (edgeCountM s2.deps s0.nextId : Int) := by
    rw [hec0] at hG
    push_cast at hG
    omega
  have hInv2 : FetchInv w [] s2 := by
    refine ⟨?_, ?_, ?_, ?_, ?_, ?_, ?_⟩
    · -- closed
      show closedUnderRef w s2.committed
      rw [hC, hcom]
      exact hInv.closed
    · -- vbound
      intro i t hlook htd
      rw [hC, hcom] at htd
      by_cases hi : i = s0.nextId
      · subst hi
        rw [hT] at hlook
        obtain rfl := Option.some.inj hlook
        dsimp only at htd ⊢
        rw [hC, hcom, hp0]
        have hsplitEC := ECM_split s2.deps s0.committed s0.nextId
        have hS : uncommittedChildCount w s0.committed desc.digest
            ≤ uncommittedEdgeCountM s2.deps s0.committed s0.nextId := by
          rw [ucc_eq_sum]
          refine sum_le_UEM s0.committed s0.nextId
            ((childDigests w desc.digest).dedup.filter fun γ => ! decide (γ ∈ s0.committed))
            s2.deps (fun γ => (childDigests w desc.digest).count γ)
            (List.Nodup.filter _ (List.nodup_dedup _)) ?_
          intro γ hγ
          rw [List.mem_filter] at hγ
          have hγc : ¬ γ ∈ s0.committed := by
            have h2 := hγ.2
            simp only [Bool.not_eq_true', decide_eq_false_iff_not] at h2
            exact h2
          refine ⟨hγc, ?_⟩
          have h1 := hF γ (by rw [hcom]; exact hγc)
          rw [htidcnt γ] at h1
          show (childDigests w desc.digest).count γ ≤ (depsLookup s2.deps γ).count s0.nextId
          omega
        rw [hk'ec]
        push_cast
        omega
      · have hlook1 : trackerLookup s1.trackers i = some t := by
          rw [← hO i hi]
          exact hlook
        rcases hsplittr i t hlook1 with ⟨hii, _⟩ | ⟨_, hl0⟩
        · exact absurd hii hi
        · have hvb := hInv.vbound i t hl0 htd
          show (uncommittedChildCount w s2.committed t.digest
              + committedEdgeCountM s2.deps s2.committed i : Int) ≤ t.count + pendCount [] i
          rw [hC, hcom, hCE s0.committed i hi]
          exact hvb
    · -- edgeBound
      intro γ i t hlook
      by_cases hi : i = s0.nextId
      · subst hi
        rw [hT] at hlook
        obtain rfl := Option.some.inj hlook
        dsimp only
        have h1 := hE γ
        rw [htidcnt γ] at h1
        omega
      · have h1 := hD γ i hi
        have hlook1 : trackerLookup s1.trackers i = some t := by
          rw [← hO i hi]
          exact hlook
        rcases hsplittr i t hlook1 with ⟨hii, _⟩ | ⟨_, hl0⟩
        · exact absurd hii hi
        · have h2 := hInv.edgeBound γ i t hl0
          omega
    · -- edgeOwner
      intro γ i hmem
      rcases hI γ i hmem with h1 | ⟨h1, h2⟩
      · obtain ⟨t, hl0, hmem2⟩ := hInv.edgeOwner γ i h1
        have hi : i ≠ s0.nextId :=
          fun hh => absurd (hh ▸ hInv.idsFresh i t hl0) (lt_irrefl _)
        refine ⟨t, ?_, hmem2⟩
        rw [hO i hi, htrk]
        exact trackerLookup_append_some s0.trackers _ i t hl0
      · subst h1
        exact ⟨⟨desc.digest, k'⟩, hT, h2⟩
    · -- keysNodup
      exact hND hInv.keysNodup
    · -- idsFresh
      intro i t hlook
      show i < s2.nextId
      rw [hN, hnid]
      by_cases hi : i = s0.nextId
      · subst hi
        omega
      · have hlook1 : trackerLookup s1.trackers i = some t := by
          rw [← hO i hi]
          exact hlook
        rcases hsplittr i t hlook1 with ⟨hii, _⟩ | ⟨_, hl0⟩
        · exact absurd hii hi
        · have := hInv.idsFresh i t hl0
          omega
    · -- framesOK
      intro f hf
      exact absurd hf (List.not_mem_nil f)
  rw [hT]
  dsimp only
  by_cases hk0 : k' = 0
  · rw [if_pos hk0]
    have hdsafe : desc.digest ∈ s2.committed ∨
        ∀ c ∈ w.children desc.digest, c.digest ∈ s2.committed := by
      by_cases hdc : desc.digest ∈ s2.committed
      · exact Or.inl hdc
      · right
        have hvb := hInv2.vbound s0.nextId ⟨desc.digest, k'⟩ hT hdc
        dsimp only at hvb
        rw [hk0, hp0] at hvb
        have hu : uncommittedChildCount w s2.committed desc.digest = 0 := by
          push_cast at hvb
          omega
        exact ucc_zero w s2.committed desc.digest hu
    obtain ⟨hInvC, hmonoC, hdC, hdepsC, htrC, hifC, hwsC, hrqC, hnidC⟩ :=
      commitObject_inv w [] s2 desc.digest hInv2 hdsafe
    obtain ⟨hInv3, hmono3, hlk3, hif3, hws3, hrq3, hnid3⟩ :=
      removeDep_post w rank hrank (removeFuel s2) desc.digest (commitObject desc.digest s2)
        [] hdC List.Pairwise.nil (fun f hf => absurd hf (List.not_mem_nil f)) hInvC
    refine ⟨hInv3, ?_, ?_, ?_⟩
    · intro x hx
      refine hmono3 x (hmonoC x ?_)
      rw [hC, hcom]
      exact hx
    · rw [hif3, hifC, hIF]
    · intro d hd
      rw [hws3, hwsC] at hd
      exact hJ d hd
  · rw [if_neg hk0]
    refine ⟨hInv2, ?_, hIF, hJ⟩
    intro x hx
    show x ∈ s2.committed
    rw [hC, hcom]
    exact hx

/-- One `fetchStep` preserves queue coherence and the closed-under-reference
invariant, and only grows the committed set. -/
theorem fetchStep_inv (w : World) (rank : Digest → Nat)
    (hrank : ∀ δ c, c ∈ w.children δ → rank c.digest < rank δ)
    (hleaf : ∀ δ c, c ∈ w.children δ →
      isCompositeType c.objectType = false → w.children c.digest = [])
    (s : FetchState) (hq : queueOK w s) (hInv : FetchInv w [] s) :
    queueOK w (fetchStep w s) ∧ FetchInv w [] (fetchStep w s) ∧
      ∀ x ∈ s.committed, x ∈ (fetchStep w s).committed := by
  cases hif : s.inFlight with
  | nil =>
      have heq : fetchStep w s = s := by
        simp only [fetchStep, hif]
      rw [heq]
      exact ⟨hq, hInv, fun x hx => hx⟩
  | cons desc restQ =>
      have hdepsL : (if isCompositeType desc.objectType = true
          then w.children desc.digest else []) = w.children desc.digest := by
        by_cases hcp : isCompositeType desc.objectType = true
        · rw [if_pos hcp]
        · rw [if_neg hcp]
          have hd0 : w.children desc.digest = [] := by
            refine hq desc (Or.inl ?_) ?_
            · rw [hif]
              exact List.mem_cons_self _ _
            · cases hb : isCompositeType desc.objectType with
              | true => exact absurd hb hcp
              | false => rfl
          rw [hd0]
      set s1rec : FetchState :=
        { s with
            progress :=
              { s.progress with
                  transferredSize := (s.progress.transferredSize + desc.size) % 2 ^ 64
                  transferredObjects := (s.progress.transferredObjects + 1) % 2 ^ 32 }
            inFlight := restQ
            requested := digestSetRemove s.requested desc.digest
            trackers := s.trackers ++ [(s.nextId, ⟨desc.digest, 0⟩)]
            nextId := s.nextId + 1 } with hs1rec
      have heq : fetchStep w s = refill (match trackerLookup
          (processDeps s.nextId (w.children desc.digest) s1rec).trackers s.nextId with
        | none => processDeps s.nextId (w.children desc.digest) s1rec
        | some t =>
            if t.count = 0 then
              removeDep w (removeFuel (processDeps s.nextId (w.children desc.digest) s1rec))
                desc.digest
                (commitObject desc.digest
                  (processDeps s.nextId (w.children desc.digest) s1rec))
            else processDeps s.nextId (w.children desc.digest) s1rec) := by
        simp only [fetchStep, hif]
        rw [hdepsL]
      rw [heq]
      obtain ⟨hInv3, hmono3, hif3, hws3⟩ :=
        receive_inv w rank hrank desc s s1rec hInv rfl rfl rfl rfl _ rfl
      refine ⟨?_, ?_, ?_⟩
      · intro d hd hncomp
        rcases refillGo_mem _ _ d hd with h1 | h1
        · rw [hif3] at h1
          have h2 : d ∈ restQ := h1
          refine hq d (Or.inl ?_) hncomp
          rw [hif]
          exact List.mem_cons_of_mem _ h2
        · rcases hws3 d h1 with h2 | h2
          · have h2' : d ∈ s.waitStack := h2
            exact hq d (Or.inr h2') hncomp
          · exact hleaf desc.digest d h2 hncomp
      · exact ⟨hInv3.closed, hInv3.vbound, hInv3.edgeBound, hInv3.edgeOwner,
          hInv3.keysNodup, hInv3.idsFresh, hInv3.framesOK⟩
      · intro x hx
        exact hmono3 x hx

/-- The fetch loop preserves queue coherence and the invariant for any
number of iterations. -/
theorem fetchLoop_inv (w : World) (rank : Digest → Nat)
    (hrank : ∀ δ c, c ∈ w.children δ → rank c.digest < rank δ)
    (hleaf : ∀ δ c, c ∈ w.children δ →
      isCompositeType c.objectType = false → w.children c.digest = []) :
    ∀ (n : Nat) (s : FetchState), queueOK w s → FetchInv w [] s →
    queueOK w (fetchLoop w n s) ∧ FetchInv w [] (fetchLoop w n s) := by
  intro n
  induction n with
  | zero =>
      intro s hq hInv
      rw [fetchLoop]
      exact ⟨hq, hInv⟩
  | succ n ih =>
      intro s hq hInv
      rw [fetchLoop]
      by_cases he : s.inFlight.isEmpty = true
      · rw [if_pos he]
        exact ⟨hq, hInv⟩
      · rw [if_neg he]
        obtain ⟨h1, h2, _⟩ := fetchStep_inv w rank hrank hleaf s hq hInv
        exact ih (fetchStep w s) h1 h2

/-- Claim C1: the closed-under-reference fetch invariant. In any world whose
reference graph is acyclic (witnessed by a rank function decreasing from
parents to children) and coherent (non-composite descriptors name childless
digests), starting `fetchObjects` from a store closed under reference keeps
the committed set closed under reference at every iteration of the fetch
loop and after any successful fetch: an object is committed — directly when
no dependency is missing, or by the cascading `dependencySet.Remove` when
its held tracker's missing count reaches zero — only once every digest it
references is committed. -/
theorem claim_C1_closed_under_reference (w : World) (rank : Digest → Nat)
    (hrank : ∀ δ c, c ∈ w.children δ → rank c.digest < rank δ)
    (hleaf : ∀ δ c, c ∈ w.children δ →
      isCompositeType c.objectType = false → w.children c.digest = [])
    (root : Descriptor)
    (hroot : isCompositeType root.objectType = false → w.children root.digest = [])
    (C0 : List Digest) (hC0 : closedUnderRef w C0) (n : Nat) :
    closedUnderRef w (fetchObjects w n root C0).committed := by
  have hq0 : queueOK w (initFetchState root C0) := by
    intro d hd hncomp
    rcases hd with hd | hd
    · have hdr : d = root := List.mem_singleton.mp hd
      subst hdr
      exact hroot hncomp
    · exact absurd hd (List.not_mem_nil d)
  have hInv0 : FetchInv w [] (initFetchState root C0) := by
    refine ⟨hC0, ?_, ?_, ?_, ?_, ?_, ?_⟩
    · intro i t hlook _
      simp [initFetchState, trackerLookup] at hlook
    · intro γ i t hlook
      simp [initFetchState, trackerLookup] at hlook
    · intro γ i hmem
      simp [initFetchState, depsLookup] at hmem
    · exact List.nodup_nil
    · intro i t hlook
      simp [initFetchState, trackerLookup] at hlook
    · intro f hf
      exact absurd hf (List.not_mem_nil f)
  obtain ⟨_, hInv⟩ :=
    fetchLoop_inv w rank hrank hleaf n (initFetchState root C0) hq0 hInv0
  exact hInv.closed

/-- Witness for C1 on the diamond world (the rank of a digest decreases from
parents to children), with enough fuel to drain the whole fetch. -/
theorem claim_C1_closed_under_reference_witness :
    closedUnderRef diamondWorld (fetchObjects diamondWorld 5 descR []).committed := by
  refine claim_C1_closed_under_reference diamondWorld (fun d => 5 - d.headD 0)
    ?_ ?_ descR ?_ [] ?_ 5
  · intro δ c hc
    by_cases h1 : δ = [1]
    · subst h1
      simp [diamondWorld] at hc
      rcases hc with rfl | rfl <;> decide
    · by_cases h2 : δ = [2]
      · subst h2
        simp [diamondWorld, h1] at hc
        subst hc
        decide
      · by_cases h3 : δ = [3]
        · subst h3
          simp [diamondWorld, h1, h2] at hc
          subst hc
          decide
        · have hnil : diamondWorld.children δ = [] := by
            simp [diamondWorld, h1, h2, h3]
          rw [hnil] at hc
          exact absurd hc (List.not_mem_nil c)
  · intro δ c hc hcomp
    by_cases h1 : δ = [1]
    · subst h1
      simp [diamondWorld] at hc
      rcases hc with rfl | rfl <;> exact absurd hcomp (by decide)
    · by_cases h2 : δ = [2]
      · subst h2
        simp [diamondWorld, h1] at hc
        subst hc
        decide
      · by_cases h3 : δ = [3]
        · subst h3
          simp [diamondWorld, h1, h2] at hc
          subst hc
          decide
        · have hnil : diamondWorld.children δ = [] := by
            simp [diamondWorld, h1, h2, h3]
          rw [hnil] at hc
          exact absurd hc (List.not_mem_nil c)
  · intro h
    exact absurd h (by decide)
  · intro d hd
    exact absurd hd (List.not_mem_nil d)

end Stemma
